import Mathlib

/-!
Verification of the pienIRC message codec and framer.

The Rust source (`pienirc/src/protocol.rs` and `pienirc-tokio/src/lib.rs`) is
shallowly embedded here.  Rust byte slices and `String`s are both modelled as
`List Nat` of byte values (every `String` is represented by its UTF-8 byte
sequence; all string literals used in concrete inputs below are ASCII, where
code points and bytes coincide, and `String::from_utf8_lossy` is the identity
on such data).  The `u16` payload of `Command::Numeric` is a `Nat`; theorems
carry the bound `n < 65536` where it matters.  `io::Error` cannot occur when
writing into a `Vec<u8>`, so the `Serialization` error variant is never
produced by the model, mirroring the source where those branches are dead.
-/

/-- Byte strings: Rust `&[u8]` buffers and (UTF-8 bytes of) `String`s. -/
abbrev Str := List Nat

/-- ASCII bytes of a Lean string literal (used only with ASCII literals,
where UTF-8 bytes and code points agree). -/
def sb (s : String) : Str := s.data.map Char.toNat

/-- The `UserMask` struct: `nick!user@server` origin. -/
structure UserMask where
  nickname : Str
  user : Str
  server : Str
deriving DecidableEq

/-- The `Prefix` enum (named `Pfx` here; `Server(String)` or `User(UserMask)`). -/
inductive Pfx where
  | Server : Str → Pfx
  | User : UserMask → Pfx
deriving DecidableEq

/-- The `Command` enum: `Numeric(u16)` or `General(String)`. -/
inductive Command where
  | Numeric : Nat → Command
  | General : Str → Command
deriving DecidableEq

/-- The `Message` struct.  The Rust field `prefix` is called `prefix_` here. -/
structure Message where
  prefix_ : Option Pfx
  command : Command
  parameters : Option (List Str)
  last_parameter : Option Str
deriving DecidableEq

/-- The `Error` enum of `protocol.rs`.  `Serialization` carries only its
static reason string; the wrapped `io::Error` is omitted since writes to a
`Vec<u8>` are infallible and the variant is never constructed. -/
inductive Error where
  | Parsing
  | MessageTooLong
  | Serialization : Str → Error
  | PrefixValidation
  | CommandValidation
  | SimpleParameterValidation
  | LastParameterValidation
deriving DecidableEq

deriving instance DecidableEq for Except

/-- The helper `sp` of `Message::new`: does the string contain a space, CR or LF? -/
def spc (s : Str) : Bool := s.contains 32 || s.contains 13 || s.contains 10

/-- Position of the first CRLF pair: `input.windows(2).position(|w| w == b"\r\n")`. -/
def crlfPos : List Nat → Option Nat
  | [] => none
  | b :: t => if b = 13 ∧ t.head? = some 10 then some 0 else (crlfPos t).map (· + 1)

/-- Rust `s.contains("\r\n")` on the last parameter. -/
def hasCrlf (s : Str) : Bool := (crlfPos s).isSome

/-- Decimal digit bytes of `n`, most significant first (no padding). -/
def decDigits (n : Nat) : List Nat :=
  if h : n < 10 then [n + 48]
  else decDigits (n / 10) ++ [n % 10 + 48]
termination_by n
decreasing_by
  exact Nat.div_lt_self (by omega) (by omega)

/-- Rendering of `write!(b, "{:03}", n)`: decimal digits zero-padded to a
minimum width of 3. -/
def pad3 (n : Nat) : Str := List.replicate (3 - (decDigits n).length) 48 ++ decDigits n

/-- The prefix guard of `Message::new` (spaces or CR/LF in any component). -/
def prefixBad : Option Pfx → Bool
  | some (.Server s) => spc s
  | some (.User u) => spc u.nickname || spc u.user || spc u.server
  | none => false

/-- The command guard of `Message::new` (only `General` text is checked). -/
def commandBad : Command → Bool
  | .General c => spc c
  | .Numeric _ => false

/-- The parameter-shape guard of `Message::new` (space/CR/LF or a leading colon). -/
def paramsBad : Option (List Str) → Bool
  | some l => l.any (fun t => spc t || t.head? == some 58)
  | none => false

/-- The parameter-count guard of `Message::new` (more than 14 middles). -/
def paramsOverflow : Option (List Str) → Bool
  | some l => decide (l.length > 14)
  | none => false

/-- The last-parameter guard of `Message::new` (contains the CR-LF pair). -/
def lastBad : Option Str → Bool
  | some t => hasCrlf t
  | none => false

/-- `Message::calc_len`: exact wire length as computed by the source
(CRLF + prefix + command + middles + trailing contributions). -/
def Message.calc_len (p : Option Pfx) (c : Command) (ps : Option (List Str))
    (lp : Option Str) : Nat :=
  2 +
  (match p with
   | some (.Server s) => s.length + 2
   | some (.User u) => u.nickname.length + u.user.length + u.server.length + 4
   | none => 0) +
  (match c with
   | .General s => s.length
   | .Numeric _ => 3) +
  (match ps with
   | some l => l.foldl (fun acc cur => acc + cur.length + 1) 0
   | none => 0) +
  (match lp with
   | some t => t.length + 2
   | none => 0)

/-- `Message::new`: the validating constructor, guards in source order.  The
error payloads of the command and parameter guards mirror the source exactly
(the command guard returns `PrefixValidation`, the parameter-shape guard
returns `CommandValidation`). -/
def Message.new (p : Option Pfx) (c : Command) (ps : Option (List Str))
    (lp : Option Str) : Except Error Message :=
  if prefixBad p then .error .PrefixValidation
  else if commandBad c then .error .PrefixValidation
  else if paramsBad ps then .error .CommandValidation
  else if paramsOverflow ps then .error .SimpleParameterValidation
  else if lastBad lp then .error .LastParameterValidation
  else if Message.calc_len p c ps lp > 512 then .error .MessageTooLong
  else .ok ⟨p, c, ps, lp⟩

/-- `Message::new_unchecked`: no validation. -/
def Message.new_unchecked (p : Option Pfx) (c : Command) (ps : Option (List Str))
    (lp : Option Str) : Message := ⟨p, c, ps, lp⟩

/-- Bytes written for the prefix by `to_bytes`: `:{s} ` for a server prefix,
`:{nick}!{user}@{server}` (no trailing space) for a user prefix. -/
def prefixBytes : Option Pfx → Str
  | some (.Server s) => 58 :: s ++ [32]
  | some (.User u) => 58 :: u.nickname ++ 33 :: u.user ++ 64 :: u.server
  | none => []

/-- Bytes written for the command by `to_bytes`. -/
def commandBytes : Command → Str
  | .Numeric n => pad3 n
  | .General c => c

/-- Bytes written for the middle parameters by `to_bytes`: each parameter is
prefixed by a single space. -/
def paramsBytes : Option (List Str) → Str
  | some l => (l.map (fun t => 32 :: t)).flatten
  | none => []

/-- Bytes written for the last parameter by `to_bytes`: ` :{t}`. -/
def lastBytes : Option Str → Str
  | some t => 32 :: 58 :: t
  | none => []

/-- The full line rendered by `to_bytes` before the length check is applied. -/
def wireBody (m : Message) : Str :=
  prefixBytes m.prefix_ ++ commandBytes m.command ++ paramsBytes m.parameters ++
    lastBytes m.last_parameter

/-- `Message::to_bytes`: length check against `calc_len`, then rendering.
Writes into a `Vec<u8>` cannot fail, so the `Serialization` wrapping in the
source is dead code and the model returns the rendered bytes directly. -/
def Message.to_bytes (m : Message) : Except Error Str :=
  if Message.calc_len m.prefix_ m.command m.parameters m.last_parameter > 512 then
    .error .MessageTooLong
  else
    .ok (wireBody m ++ [13, 10])

/-- Capacity of the `Vec<u8>` produced by `to_bytes`: `with_capacity` reserves
exactly `calc_len` bytes, and the vector reallocates (to at least the written
length) only when more than the reserved length is written. -/
def Message.to_bytes_capacity (m : Message) : Nat :=
  max (Message.calc_len m.prefix_ m.command m.parameters m.last_parameter)
      (match m.to_bytes with
       | .ok bs => bs.length
       | .error _ => 0)

/-!
The parse regex.  `Message::parse` matches the candidate line against

  `^(?::(?:(?<nick>[^!]+)!(?<user>[^@]+)@(?<server>[^ ]+))|(?<serverPfx>[^ ]+)) +)?`
  `(?<command>[^ ]+)`
  `(?: +(?<parameters>(?: *[^: ][^ ]*){1,14}))?`
  `(?: +:?(?<lastparam>[^\r\n]*))?`
  `\r\n`

with the `regex` crate's leftmost-first (Perl-style) match semantics: an
alternation prefers its first branch, a greedy repetition prefers longer
matches, and on failure the engine backtracks.  The matcher below implements
exactly those semantics in continuation-passing style: each greedy character
class enumerates its candidate splits from longest to shortest and commits to
the first one whose continuation succeeds.
-/

/-- All splits `(pre, suf)` with `pre ++ suf = l`, shortest `pre` first. -/
def allSplits : List Nat → List (Str × List Nat)
  | [] => [([], [])]
  | a :: t => ([], a :: t) :: (allSplits t).map (fun ps => (a :: ps.1, ps.2))

/-- First success of `f` over a list of candidates, in order. -/
def firstSome : List α → (α → Option β) → Option β
  | [], _ => none
  | a :: t, f => match f a with
    | some v => some v
    | none => firstSome t f

/-- Greedy `[class]*`: the run of class bytes is split off, and candidate
matches are tried from the longest prefix of the run down to the empty one. -/
def greedyStar (p : Nat → Bool) (l : List Nat) (k : Str → List Nat → Option β) :
    Option β :=
  firstSome (allSplits (l.takeWhile p)).reverse (fun ps => k ps.1 (ps.2 ++ l.dropWhile p))

/-- Greedy `[class]+`: like `[class]*` but the empty candidate is rejected. -/
def greedyPlus (p : Nat → Bool) (l : List Nat) (k : Str → List Nat → Option β) :
    Option β :=
  greedyStar p l (fun pre suf => if pre.isEmpty then none else k pre suf)

/-- A single literal byte. -/
def litb (b : Nat) (l : List Nat) (k : List Nat → Option β) : Option β :=
  match l with
  | c :: r => if c == b then k r else none
  | [] => none

/-- Byte classes appearing in the regex. -/
def isSp (b : Nat) : Bool := b == 32
def nSp (b : Nat) : Bool := !(b == 32)
def nBang (b : Nat) : Bool := !(b == 33)
def nAt (b : Nat) : Bool := !(b == 64)
def nCrlf (b : Nat) : Bool := !(b == 13) && !(b == 10)

/-- Captured prefix alternatives of the regex. -/
inductive PrefCap where
  | noPfx : PrefCap
  | userPfx : Str → Str → Str → PrefCap
  | serverPfx : Str → PrefCap
deriving DecidableEq

/-- First-success choice: the backtracking `|` fallthrough of the matcher. -/
def orSome : Option β → (Unit → Option β) → Option β
  | some v, _ => some v
  | none, b => b ()

/-- The `nick!user@server` branch of the prefix group: `[^!]+!([^@]+)@([^ ]+)`. -/
def matchUserBranch (l : List Nat) (k : Str → Str → Str → List Nat → Option β) :
    Option β :=
  greedyPlus nBang l (fun n r1 =>
    litb 33 r1 (fun r2 =>
      greedyPlus nAt r2 (fun u r3 =>
        litb 64 r3 (fun r4 =>
          greedyPlus nSp r4 (fun s r5 => k n u s r5)))))

/-- One-or-more spaces. -/
def spacesThen (l : List Nat) (k : List Nat → Option β) : Option β :=
  greedyPlus isSp l (fun _ r => k r)

/-- The optional prefix group `(?::(?:nick!user@server|serverPfx) +)?`:
the user branch is preferred over the plain server token, and matching no
prefix at all is the last resort. -/
def matchPrefixGroup (l : List Nat) (k : PrefCap → List Nat → Option β) : Option β :=
  orSome (litb 58 l (fun r1 =>
    orSome (matchUserBranch r1 (fun n u s r2 => spacesThen r2 (k (.userPfx n u s))))
      (fun _ => greedyPlus nSp r1 (fun s r2 => spacesThen r2 (k (.serverPfx s))))))
    (fun _ => k .noPfx l)

/-- One middle-parameter element ` *[^: ][^ ]*`; the span handed to the
continuation includes the leading spaces, matching what the `parameters`
capture group accumulates. -/
def matchParamElem (l : List Nat) (k : Str → List Nat → Option β) : Option β :=
  greedyStar isSp l (fun sp1 r1 =>
    match r1 with
    | [] => none
    | b :: r2 =>
      if b == 58 || b == 32 then none
      else greedyStar nSp r2 (fun tl r3 => k (sp1 ++ b :: tl) r3))

/-- Greedy `{0,fuel}` repetition of the element, preferring more elements;
`acc` is the span matched so far. -/
def repElems : Nat → Str → List Nat → (Str → List Nat → Option β) → Option β
  | 0, acc, l, k => k acc l
  | fuel + 1, acc, l, k =>
    orSome (matchParamElem l (fun e r => repElems fuel (acc ++ e) r k))
      (fun _ => k acc l)

/-- The optional middles group `(?: +(?<parameters>(elem){1,14}))?`. -/
def matchParamsGroup (l : List Nat) (k : Option Str → List Nat → Option β) :
    Option β :=
  orSome (greedyPlus isSp l (fun _ r1 =>
    matchParamElem r1 (fun e r2 =>
      repElems 13 e r2 (fun span r3 => k (some span) r3))))
    (fun _ => k none l)

/-- The optional trailing group `(?: +:?(?<lastparam>[^\r\n]*))?`; consuming
the optional colon is preferred. -/
def matchLastGroup (l : List Nat) (k : Option Str → List Nat → Option β) :
    Option β :=
  orSome (greedyPlus isSp l (fun _ r1 =>
    orSome (litb 58 r1 (fun r2 => greedyStar nCrlf r2 (fun cap r3 => k (some cap) r3)))
      (fun _ => greedyStar nCrlf r1 (fun cap r3 => k (some cap) r3))))
    (fun _ => k none l)

/-- Continuation after the middles group: trailing group, then literal CRLF.
Returns the `parameters` and `lastparam` captures and the unmatched suffix. -/
def afterParams (ps : Option Str) (l : List Nat) :
    Option (Option Str × Option Str × List Nat) :=
  matchLastGroup l (fun lp r =>
    match r with
    | 13 :: 10 :: rr => some (ps, lp, rr)
    | _ => none)

/-- The fixed continuation the middles repetition runs into. -/
def KP (span : Str) (r : List Nat) : Option (Option Str × Option Str × List Nat) :=
  afterParams (some span) r

/-- Command token and everything after it: `([^ ]+)(params)?(last)?\r\n`. -/
def matchCommandLine (l : List Nat) :
    Option (Str × Option Str × Option Str × List Nat) :=
  greedyPlus nSp l (fun cmd r =>
    (matchParamsGroup r afterParams).map (fun x => (cmd, x)))

/-- The whole anchored regex; returns all captures and the unmatched suffix. -/
def matchMessage (l : List Nat) :
    Option (PrefCap × Str × Option Str × Option Str × List Nat) :=
  matchPrefixGroup l (fun pc r =>
    (matchCommandLine r).map (fun x => (pc, x)))

/-- Rust `<u16 as FromStr>::from_str` on a captured token: an optional leading
`+`, then one or more decimal digits, failing on overflow past 65535. -/
def parseU16 (s : Str) : Option Nat :=
  let digits := match s with
    | 43 :: rest => rest
    | _ => s
  if digits.isEmpty then none
  else digits.foldl (fun acc b =>
    match acc with
    | none => none
    | some v =>
      if 48 ≤ b ∧ b ≤ 57 then
        if v * 10 + (b - 48) ≤ 65535 then some (v * 10 + (b - 48)) else none
      else none) (some 0)

/-- Rust `char::is_ascii_whitespace` on a byte (space, tab, LF, FF, CR). -/
def isAsciiWs (b : Nat) : Bool := b == 32 || b == 9 || b == 10 || b == 12 || b == 13

/-- Accumulator worker for `split_ascii_whitespace`. -/
def splitWsGo : List Nat → Str → List Str
  | [], acc => if acc.isEmpty then [] else [acc.reverse]
  | b :: t, acc =>
    if isAsciiWs b then
      if acc.isEmpty then splitWsGo t [] else acc.reverse :: splitWsGo t []
    else splitWsGo t (b :: acc)

/-- Rust `str::split_ascii_whitespace` over the byte representation. -/
def splitAsciiWs (l : Str) : List Str := splitWsGo l []

/-- Construction of the `Message` from the captures, as in the source:
user prefix preferred over server prefix, numeric command detected by a
successful `u16` parse, middles recovered by `split_ascii_whitespace`. -/
def capsToMessage (pc : PrefCap) (cmd : Str) (ps : Option Str) (lp : Option Str) :
    Message :=
  Message.new_unchecked
    (match pc with
     | .noPfx => none
     | .userPfx n u s => some (.User ⟨n, u, s⟩)
     | .serverPfx s => some (.Server s))
    (match parseU16 cmd with
     | some n => .Numeric n
     | none => .General cmd)
    (match ps with
     | some span => some (splitAsciiWs span)
     | none => none)
    lp

/-- `Message::parse`: CRLF scan, 510-byte content bound, regex match, and the
non-empty-match filter.  Note the returned count is `size`, the index of the
first CRLF, exactly as in the source. -/
def Message.parse (input : List Nat) : Except Error (Option (Message × Nat)) :=
  match crlfPos input with
  | none => .ok none
  | some size =>
    if size > 510 then .error .MessageTooLong
    else
      match matchMessage input with
      | none => .error .Parsing
      | some (pc, cmd, ps, lp, rest) =>
        if input.length - rest.length == 0 then .error .Parsing
        else .ok (some (capsToMessage pc cmd ps lp, size))

/-!
The tokio framer (`pienirc-tokio/src/lib.rs`).  The stream is modelled as a
list of chunks delivered by successive `read_buf` calls; an exhausted list
(or an explicit empty chunk) is a read returning zero bytes.
-/

/-- Does a parse outcome carry a message?  (`if let Ok(Some(..))` in `receive`.) -/
def gotMsg : Except Error (Option (Message × Nat)) → Bool
  | .ok (some _) => true
  | _ => false

/-- Outcome of `Transport::receive`: a message (with the surviving buffer and
stream), a clean end of stream (`Ok(None)`), or the `ConnectionReset` error. -/
inductive ReceiveResult where
  | msg : Message → List Nat → List (List Nat) → ReceiveResult
  | streamEnd : ReceiveResult
  | connectionReset : ReceiveResult
deriving DecidableEq

/-- The `receive` loop: `if let Ok(Some((message, size)))` succeeds, the
buffer is advanced by `size` and the message returned; on ANY other parse
outcome (incomplete, but also either parse error) one more read is attempted,
and a zero-byte read ends the loop. -/
def receive : List Nat → List (List Nat) → ReceiveResult
  | buf, [] =>
    match Message.parse buf with
    | .ok (some (m, size)) => .msg m (buf.drop size) []
    | _ => if buf.isEmpty then .streamEnd else .connectionReset
  | buf, c :: rest =>
    match Message.parse buf with
    | .ok (some (m, size)) => .msg m (buf.drop size) (c :: rest)
    | _ =>
      if c.isEmpty then (if buf.isEmpty then .streamEnd else .connectionReset)
      else receive (buf ++ c) rest

/-!
Statement vocabulary: well-formedness predicates used as hypotheses of the
round-trip and parameter-overflow theorems, and the frame constructions of
the parameter-overflow property.
-/

/-- Tokens joined by single spaces (the shape of a middles capture span, and
of the trailing parameter produced from overflow tokens). -/
def joinSp : List Str → Str
  | [] => []
  | [t] => t
  | t :: ts => t ++ 32 :: joinSp ts

/-- A well-formed token: non-empty, not starting with a colon, and free of
ASCII whitespace bytes. -/
def TokOk (t : Str) : Prop :=
  t ≠ [] ∧ t.head? ≠ some 58 ∧ ∀ b ∈ t, isAsciiWs b = false

/-- A command whose serialized form parses back to itself: non-empty `General`
text that does not read as a `u16` (and no leading colon when there is no
prefix to absorb it), or a three-digit `Numeric`. -/
def CmdOk (p : Option Pfx) : Command → Prop
  | .General s => s ≠ [] ∧ parseU16 s = none ∧ (p = none → s.head? ≠ some 58)
  | .Numeric n => n ≤ 999

/-- A prefix whose serialized form parses back to itself: absent, or a
non-empty server name with no `!` anywhere in the line after the leading colon
(so the user-mask branch of the grammar cannot fire).  A `User` prefix never
round-trips, because `to_bytes` omits the space between the mask and the
command, so it is excluded here. -/
def PfxOk (p : Option Pfx) (c : Command) (ps : Option (List Str)) (lp : Option Str) :
    Prop :=
  match p with
  | none => True
  | some (.Server s) =>
    s ≠ [] ∧
      33 ∉ s ++ 32 :: (commandBytes c ++ (paramsBytes ps ++ (lastBytes lp ++ [13, 10])))
  | some (.User _) => False

/-- Middle parameters whose serialized form parses back: a non-empty list of
well-formed tokens. -/
def PsOk : Option (List Str) → Prop
  | some l => l ≠ [] ∧ ∀ t ∈ l, t ≠ [] ∧ ∀ b ∈ t, isAsciiWs b = false
  | none => True

/-- A trailing parameter whose serialized form parses back: no CR and no LF
byte at all (the validating constructor only rejects the adjacent pair). -/
def LpOk : Option Str → Prop
  | some t => 13 ∉ t ∧ 10 ∉ t
  | none => True

/-- Commands whose rendered width equals the 3 bytes charged by `calc_len`. -/
def cmdWidth3 : Command → Prop
  | .General _ => True
  | .Numeric n => n ≤ 999

/-- A command followed by the given tokens, each preceded by a single space,
then CRLF. -/
def frameA (c : Str) (ts : List Str) : List Nat :=
  c ++ (ts.map (fun t => 32 :: t)).flatten ++ [13, 10]

/-- Like `frameA` with 17 tokens, but the 15th token is marked with a leading
colon on the wire. -/
def frameB (c : Str) (ts : List Str) : List Nat :=
  c ++ ((ts.take 14).map (fun t => 32 :: t)).flatten ++
    32 :: 58 :: joinSp (ts.drop 14) ++ [13, 10]

/-- The middle-token region: each token preceded by one space, ending in `T`. -/
def chainBytes (ts : List Str) (T : List Nat) : List Nat :=
  ts.foldr (fun t r => 32 :: t ++ r) T

/-- The `parameters` capture span the grammar produces for a rendered
middles list (tokens joined by single spaces). -/
def psSpan : Option (List Str) → Option Str
  | some (t1 :: ts') => some (t1 ++ (ts'.map (fun t => 32 :: t)).flatten)
  | _ => none

/-- The prefix capture corresponding to a message prefix. -/
def pcOf : Option Pfx → PrefCap
  | none => .noPfx
  | some (.Server s) => .serverPfx s
  | some (.User u) => .userPfx u.nickname u.user u.server

/-!
Generic lemmas about the backtracking combinators.
-/

theorem contains_false_not_mem {l : Str} {a : Nat} (h : l.contains a = false) :
    a ∉ l := by
  simpa using h

theorem spc_false {s : Str} (h : spc s = false) : 32 ∉ s ∧ 13 ∉ s ∧ 10 ∉ s := by
  simp only [spc, Bool.or_eq_false_iff] at h
  exact ⟨contains_false_not_mem h.1.1, contains_false_not_mem h.1.2,
    contains_false_not_mem h.2⟩

theorem takeWhile_append_cons {p : Nat → Bool} {s : Str} {b : Nat} (r : List Nat)
    (hs : ∀ x ∈ s, p x = true) (hb : p b = false) :
    (s ++ b :: r).takeWhile p = s := by
  induction s with
  | nil => simp [List.takeWhile_cons, hb]
  | cons a t ih =>
    have ha : p a = true := hs a (by simp)
    simp only [List.cons_append, List.takeWhile_cons, ha]
    simp [ih (fun x hx => hs x (by simp [hx]))]

theorem dropWhile_append_cons {p : Nat → Bool} {s : Str} {b : Nat} (r : List Nat)
    (hs : ∀ x ∈ s, p x = true) (hb : p b = false) :
    (s ++ b :: r).dropWhile p = b :: r := by
  induction s with
  | nil => simp [List.dropWhile_cons, hb]
  | cons a t ih =>
    have ha : p a = true := hs a (by simp)
    simp only [List.cons_append, List.dropWhile_cons, ha]
    simp [ih (fun x hx => hs x (by simp [hx]))]

theorem takeWhile_all {p : Nat → Bool} {s : Str} (hs : ∀ x ∈ s, p x = true) :
    s.takeWhile p = s :=
  List.takeWhile_eq_self_iff.mpr hs

theorem dropWhile_all {p : Nat → Bool} {s : Str} (hs : ∀ x ∈ s, p x = true) :
    s.dropWhile p = [] := by
  induction s with
  | nil => rfl
  | cons a t ih =>
    have ha : p a = true := hs a (by simp)
    simp only [List.dropWhile_cons, ha]
    simpa using ih (fun x hx => hs x (by simp [hx]))

theorem allSplits_parts {l : List Nat} :
    ∀ ps ∈ allSplits l, ps.1 ++ ps.2 = l := by
  induction l with
  | nil => intro ps hps; simp [allSplits] at hps; simp [hps]
  | cons a t ih =>
    intro ps hps
    simp only [allSplits, List.mem_cons, List.mem_map] at hps
    rcases hps with h | ⟨q, hq, rfl⟩
    · simp [h]
    · simpa using ih q hq

theorem allSplits_concat (l : List Nat) :
    ∃ init, allSplits l = init ++ [(l, [])] := by
  induction l with
  | nil => exact ⟨[], rfl⟩
  | cons a t ih =>
    obtain ⟨init, hinit⟩ := ih
    refine ⟨([], a :: t) :: init.map (fun ps => (a :: ps.1, ps.2)), ?_⟩
    simp [allSplits, hinit]

theorem allSplits_reverse_head (l : List Nat) :
    ∃ tl, (allSplits l).reverse = (l, []) :: tl := by
  obtain ⟨init, hinit⟩ := allSplits_concat l
  exact ⟨init.reverse, by simp [hinit]⟩

theorem allSplits_snoc (l : List Nat) (x : Nat) :
    allSplits (l ++ [x]) =
      (allSplits l).map (fun ps => (ps.1, ps.2 ++ [x])) ++ [(l ++ [x], [])] := by
  induction l with
  | nil => simp [allSplits]
  | cons a t ih =>
    show allSplits (a :: (t ++ [x])) = _
    simp only [allSplits]
    rw [ih]
    simp [List.map_map, Function.comp_def]

theorem firstSome_eq_none {l : List α} {f : α → Option β}
    (h : ∀ a ∈ l, f a = none) : firstSome l f = none := by
  induction l with
  | nil => rfl
  | cons a t ih =>
    simp only [firstSome, h a (by simp)]
    exact ih (fun x hx => h x (by simp [hx]))

theorem greedyStar_first {p : Nat → Bool} {s : Str} {b : Nat} {r : List Nat}
    {k : Str → List Nat → Option β} {v : β}
    (hs : ∀ x ∈ s, p x = true) (hb : p b = false) (hk : k s (b :: r) = some v) :
    greedyStar p (s ++ b :: r) k = some v := by
  unfold greedyStar
  rw [takeWhile_append_cons r hs hb, dropWhile_append_cons r hs hb]
  obtain ⟨tl, htl⟩ := allSplits_reverse_head s
  rw [htl]
  simp only [firstSome]
  rw [List.nil_append, hk]

theorem greedyStar_nilRun {p : Nat → Bool} {l : List Nat}
    {k : Str → List Nat → Option β} (h : l.takeWhile p = []) :
    greedyStar p l k = k [] l := by
  have hd : l.dropWhile p = l := by
    cases l with
    | nil => rfl
    | cons a t =>
      simp only [List.takeWhile_cons] at h
      by_cases hp : p a
      · simp [hp] at h
      · simp [List.dropWhile_cons, hp]
  unfold greedyStar
  rw [h, hd]
  show firstSome [([], [])] _ = _
  simp only [firstSome, List.nil_append]
  cases hk : k [] l <;> simp [hk]

theorem greedyStar_two {p : Nat → Bool} {s : Str} {a b : Nat}
    {k : Str → List Nat → Option β} {v : β}
    (hs : ∀ x ∈ s, p x = true) (ha : p a = true) (hb : p b = true)
    (h1 : k (s ++ [a, b]) [] = none) (h2 : k (s ++ [a]) [b] = none)
    (h3 : k s [a, b] = some v) :
    greedyStar p (s ++ [a, b]) k = some v := by
  have hall : ∀ x ∈ s ++ [a, b], p x = true := by
    intro x hx
    rcases List.mem_append.mp hx with h | h
    · exact hs x h
    · simp only [List.mem_cons, List.not_mem_nil, or_false] at h
      rcases h with rfl | rfl
      · exact ha
      · exact hb
  unfold greedyStar
  rw [takeWhile_all hall, dropWhile_all hall]
  have e1 : s ++ [a, b] = (s ++ [a]) ++ [b] := by simp
  rw [e1, allSplits_snoc (s ++ [a]) b, allSplits_snoc s a, List.map_append]
  obtain ⟨tl, htl⟩ := allSplits_reverse_head s
  have hrev : ∀ (X : List (Str × List Nat)) (y z : Str × List Nat),
      ((X ++ [y]) ++ [z]).reverse = z :: y :: X.reverse := by
    intro X y z
    simp
  simp only [List.map_cons, List.map_nil] at *
  rw [hrev]
  rw [List.map_map, ← List.map_reverse, htl]
  simp only [List.map_cons, Function.comp_def, firstSome, List.append_nil,
    List.nil_append]
  have h1' : k (s ++ [a] ++ [b]) [] = none := by rw [← e1]; exact h1
  have h3' : k s ([a] ++ [b]) = some v := by simpa using h3
  rw [h1', h2, h3']

theorem greedyPlus_first {p : Nat → Bool} {s : Str} {b : Nat} {r : List Nat}
    {k : Str → List Nat → Option β} {v : β}
    (hne : s ≠ []) (hs : ∀ x ∈ s, p x = true) (hb : p b = false)
    (hk : k s (b :: r) = some v) :
    greedyPlus p (s ++ b :: r) k = some v := by
  apply greedyStar_first hs hb
  have : s.isEmpty = false := by simpa [List.isEmpty_iff] using hne
  simp [this, hk]

theorem greedyPlus_two {p : Nat → Bool} {s : Str} {a b : Nat}
    {k : Str → List Nat → Option β} {v : β}
    (hne : s ≠ []) (hs : ∀ x ∈ s, p x = true) (ha : p a = true) (hb : p b = true)
    (h1 : k (s ++ [a, b]) [] = none) (h2 : k (s ++ [a]) [b] = none)
    (h3 : k s [a, b] = some v) :
    greedyPlus p (s ++ [a, b]) k = some v := by
  have he : s.isEmpty = false := by simpa [List.isEmpty_iff] using hne
  apply greedyStar_two hs ha hb
  · simpa using h1
  · simpa using h2
  · simp [he, h3]

theorem greedyPlus_nilRun {p : Nat → Bool} {l : List Nat}
    {k : Str → List Nat → Option β} (h : l.takeWhile p = []) :
    greedyPlus p l k = none := by
  unfold greedyPlus
  rw [greedyStar_nilRun h]
  rfl

theorem plusThenLit_none {p : Nat → Bool} {l : List Nat} {b : Nat}
    {g : Str → List Nat → Option β} (hb : b ∉ l) :
    greedyPlus p l (fun pre suf => litb b suf (g pre)) = none := by
  unfold greedyPlus greedyStar
  apply firstSome_eq_none
  intro ps hps
  rw [List.mem_reverse] at hps
  have hparts := allSplits_parts ps hps
  cases he : ps.1.isEmpty with
  | true => simp [he]
  | false =>
    simp only [he, Bool.false_eq_true, if_false]
    cases hsuf : ps.2 ++ l.dropWhile p with
    | nil => rfl
    | cons c t =>
      have hcl : c ∈ l := by
        have hc : c ∈ ps.2 ++ l.dropWhile p := by rw [hsuf]; simp
        rcases List.mem_append.mp hc with h | h
        · have : c ∈ l.takeWhile p := by
            rw [← hparts]
            exact List.mem_append.mpr (Or.inr h)
          exact (List.takeWhile_sublist p).subset this
        · exact (List.dropWhile_sublist p).subset h
      have hcb : (c == b) = false := by
        simp only [beq_eq_false_iff_ne, ne_eq]
        intro hcontra
        exact hb (hcontra ▸ hcl)
      simp [litb, hcb]

theorem litb_cons_ne {b c : Nat} {r : List Nat} {k : List Nat → Option β}
    (h : c ≠ b) : litb b (c :: r) k = none := by
  have : (c == b) = false := by simpa using h
  simp [litb, this]

theorem litb_head_ne {b : Nat} {l : List Nat} {k : List Nat → Option β}
    (h : l.head? ≠ some b) : litb b l k = none := by
  cases l with
  | nil => rfl
  | cons c t =>
    apply litb_cons_ne
    intro hcb
    exact h (by simp [hcb])

theorem litb_eq {b : Nat} {r : List Nat} {k : List Nat → Option β} :
    litb b (b :: r) k = k r := by
  simp [litb]

theorem orSome_some {a : Option β} {b : Unit → Option β} {v : β}
    (h : a = some v) : orSome a b = some v := by
  rw [h]; rfl

theorem orSome_none {a : Option β} {b : Unit → Option β}
    (h : a = none) : orSome a b = b () := by
  rw [h]; rfl

theorem spacesThen_single {c : Nat} {r : List Nat} {k : List Nat → Option β} {v : β}
    (hc : isSp c = false) (hk : k (c :: r) = some v) :
    spacesThen (32 :: c :: r) k = some v := by
  show greedyPlus isSp ([32] ++ c :: r) _ = some v
  exact greedyPlus_first (by simp) (by intro x hx; simp at hx; simp [hx, isSp]) hc hk

theorem matchPrefixGroup_none {l : List Nat} {k : PrefCap → List Nat → Option β}
    (h : l.head? ≠ some 58) :
    matchPrefixGroup l k = k .noPfx l := by
  unfold matchPrefixGroup
  rw [litb_head_ne h]; rfl

/-!
Evaluation lemmas for the trailing group and the middles repetition on the
input shapes produced by `to_bytes` and the overflow frames.
-/

theorem afterParams_nil {ps : Option Str} : afterParams ps [] = none := rfl

theorem afterParams_ten {ps : Option Str} : afterParams ps [10] = none := rfl

theorem afterParams_crlf {ps : Option Str} {r : List Nat} :
    afterParams ps (13 :: 10 :: r) = some (ps, none, r) := rfl

theorem afterParams_colon {ps : Option Str} {w : Str} {r : List Nat}
    (h13 : 13 ∉ w) (h10 : 10 ∉ w) :
    afterParams ps (32 :: 58 :: w ++ 13 :: 10 :: r) = some (ps, some w, r) := by
  have hw : ∀ x ∈ w, nCrlf x = true := by
    intro x hx
    have hx13 : x ≠ 13 := fun hh => h13 (hh ▸ hx)
    have hx10 : x ≠ 10 := fun hh => h10 (hh ▸ hx)
    simp [nCrlf, hx13, hx10]
  unfold afterParams matchLastGroup
  apply orSome_some
  show greedyPlus isSp ([32] ++ 58 :: (w ++ 13 :: 10 :: r)) _ = _
  apply greedyPlus_first (by simp) (by intro x hx; simp at hx; simp [hx, isSp])
    (by simp [isSp])
  beta_reduce
  rw [litb_eq]
  apply orSome_some
  apply greedyStar_first hw (by simp [nCrlf])
  rfl

theorem afterParams_noColon {ps : Option Str} {w : Str} {r : List Nat}
    (h13 : 13 ∉ w) (h10 : 10 ∉ w) (h58 : w.head? ≠ some 58) (h32 : w.head? ≠ some 32) :
    afterParams ps (32 :: w ++ 13 :: 10 :: r) = some (ps, some w, r) := by
  have hw : ∀ x ∈ w, nCrlf x = true := by
    intro x hx
    have hx13 : x ≠ 13 := fun hh => h13 (hh ▸ hx)
    have hx10 : x ≠ 10 := fun hh => h10 (hh ▸ hx)
    simp [nCrlf, hx13, hx10]
  unfold afterParams matchLastGroup
  apply orSome_some
  cases w with
  | nil =>
    show greedyPlus isSp ([32] ++ 13 :: (10 :: r)) _ = _
    apply greedyPlus_first (by simp) (by intro x hx; simp at hx; simp [hx, isSp])
      (by simp [isSp])
    beta_reduce
    rw [litb_cons_ne (by omega)]
    rw [orSome_none rfl]
    rw [greedyStar_nilRun (by simp [List.takeWhile_cons, nCrlf])]
  | cons c w' =>
    have hc58 : c ≠ 58 := by intro hh; exact h58 (by simp [hh])
    have hc32 : c ≠ 32 := by intro hh; exact h32 (by simp [hh])
    show greedyPlus isSp ([32] ++ c :: (w' ++ 13 :: 10 :: r)) _ = _
    apply greedyPlus_first (by simp) (by intro x hx; simp at hx; simp [hx, isSp])
      (by simp [isSp, hc32])
    beta_reduce
    rw [litb_cons_ne hc58]
    rw [orSome_none rfl]
    show greedyStar nCrlf ((c :: w') ++ 13 :: (10 :: r)) _ = _
    apply greedyStar_first hw (by simp [nCrlf])
    rfl

theorem tokOk_head {t : Str} (h : TokOk t) :
    ∃ c t', t = c :: t' ∧ (c == 58 || c == 32) = false ∧ isSp c = false ∧
      (∀ x ∈ t', nSp x = true) := by
  obtain ⟨hne, h58, hws⟩ := h
  cases t with
  | nil => exact absurd rfl hne
  | cons c t' =>
    have hc58 : c ≠ 58 := by intro hh; exact h58 (by simp [hh])
    have hcws : isAsciiWs c = false := hws c (by simp)
    have hc32 : c ≠ 32 := by
      intro hh
      rw [hh] at hcws
      simp [isAsciiWs] at hcws
    refine ⟨c, t', rfl, by simp [hc58, hc32], by simp [isSp, hc32], ?_⟩
    intro x hx
    have := hws x (by simp [hx])
    simp only [isAsciiWs, Bool.or_eq_false_iff] at this
    simp [nSp, this.1.1.1.1]

theorem matchParamElem_noSp_cons {t : Str} {rest : List Nat}
    {cont : Str → List Nat → Option β} {v : β}
    (htok : TokOk t) (hrest : rest.head? = some 32)
    (h : cont t rest = some v) :
    matchParamElem (t ++ rest) cont = some v := by
  obtain ⟨c, t', rfl, hc, hcsp, ht'⟩ := tokOk_head htok
  unfold matchParamElem
  rw [greedyStar_nilRun (by simp [List.takeWhile_cons, hcsp])]
  show (match (c :: t') ++ rest with
    | [] => none
    | b :: r2 => if (b == 58 || b == 32) = true then none
        else greedyStar nSp r2 (fun tl r3 => cont ([] ++ b :: tl) r3)) = some v
  simp only [List.cons_append, hc, Bool.false_eq_true, if_false]
  cases rest with
  | nil => simp at hrest
  | cons c0 rr =>
    have hc0 : c0 = 32 := by simpa using hrest
    subst hc0
    apply greedyStar_first ht' (by simp [nSp])
    simpa using h

theorem matchParamElem_noSp_end {t : Str}
    {cont : Str → List Nat → Option β} {v : β}
    (htok : TokOk t)
    (h1 : cont (t ++ [13, 10]) [] = none) (h2 : cont (t ++ [13]) [10] = none)
    (h3 : cont t [13, 10] = some v) :
    matchParamElem (t ++ [13, 10]) cont = some v := by
  obtain ⟨c, t', rfl, hc, hcsp, ht'⟩ := tokOk_head htok
  unfold matchParamElem
  rw [greedyStar_nilRun (by simp [List.takeWhile_cons, hcsp])]
  show (match (c :: t') ++ [13, 10] with
    | [] => none
    | b :: r2 => if (b == 58 || b == 32) = true then none
        else greedyStar nSp r2 (fun tl r3 => cont ([] ++ b :: tl) r3)) = some v
  simp only [List.cons_append, hc, Bool.false_eq_true, if_false]
  apply greedyStar_two ht' (by simp [nSp]) (by simp [nSp])
  · simpa using h1
  · simpa using h2
  · simpa using h3

theorem matchParamElem_sp_cons {t : Str} {rest : List Nat}
    {cont : Str → List Nat → Option β} {v : β}
    (htok : TokOk t) (hrest : rest.head? = some 32)
    (h : cont (32 :: t) rest = some v) :
    matchParamElem (32 :: t ++ rest) cont = some v := by
  obtain ⟨c, t', et, hc, hcsp, ht'⟩ := tokOk_head htok
  subst et
  unfold matchParamElem
  show greedyStar isSp ([32] ++ c :: (t' ++ rest)) _ = some v
  apply greedyStar_first (by intro x hx; simp at hx; simp [hx, isSp]) hcsp
  show (match c :: (t' ++ rest) with
    | [] => none
    | b :: r2 => if (b == 58 || b == 32) = true then none
        else greedyStar nSp r2 (fun tl r3 => cont ([32] ++ b :: tl) r3)) = some v
  simp only [hc, Bool.false_eq_true, if_false]
  cases rest with
  | nil => simp at hrest
  | cons c0 rr =>
    have hc0 : c0 = 32 := by simpa using hrest
    subst hc0
    apply greedyStar_first ht' (by simp [nSp])
    simpa using h

theorem matchParamElem_sp_end {t : Str}
    {cont : Str → List Nat → Option β} {v : β}
    (htok : TokOk t)
    (h1 : cont (32 :: t ++ [13, 10]) [] = none) (h2 : cont (32 :: t ++ [13]) [10] = none)
    (h3 : cont (32 :: t) [13, 10] = some v) :
    matchParamElem (32 :: t ++ [13, 10]) cont = some v := by
  obtain ⟨c, t', et, hc, hcsp, ht'⟩ := tokOk_head htok
  subst et
  unfold matchParamElem
  show greedyStar isSp ([32] ++ c :: (t' ++ [13, 10])) _ = some v
  apply greedyStar_first (by intro x hx; simp at hx; simp [hx, isSp]) hcsp
  show (match c :: (t' ++ [13, 10]) with
    | [] => none
    | b :: r2 => if (b == 58 || b == 32) = true then none
        else greedyStar nSp r2 (fun tl r3 => cont ([32] ++ b :: tl) r3)) = some v
  simp only [hc, Bool.false_eq_true, if_false]
  apply greedyStar_two ht' (by simp [nSp]) (by simp [nSp])
  · simpa using h1
  · simpa using h2
  · simpa using h3

theorem matchParamElem_ten {cont : Str → List Nat → Option β}
    (h : cont [10] [] = none) : matchParamElem [10] cont = none := by
  unfold matchParamElem greedyStar
  show (match (match cont ([] ++ 10 :: []) ([] ++ []) with
    | some v => some v
    | none => none) with
    | some v => some v
    | none => none) = none
  simp only [List.nil_append, List.append_nil] at *
  rw [h]

theorem matchParamElem_crlfOnly {cont : Str → List Nat → Option β}
    (h1 : cont [13, 10] [] = none) (h2 : cont [13] [10] = none) :
    matchParamElem [13, 10] cont = none := by
  unfold matchParamElem greedyStar
  show (match (match cont ([] ++ 13 :: [10]) ([] ++ []) with
    | some v => some v
    | none =>
      match cont ([] ++ 13 :: []) ([10] ++ []) with
      | some v => some v
      | none => none) with
    | some v => some v
    | none => none) = none
  simp only [List.nil_append, List.append_nil] at *
  rw [h1, h2]

theorem matchParamElem_colonAfterSp {rest : List Nat}
    {cont : Str → List Nat → Option β} :
    matchParamElem (32 :: 58 :: rest) cont = none := rfl

theorem matchParamElem_colonHead {rest : List Nat}
    {cont : Str → List Nat → Option β} :
    matchParamElem (58 :: rest) cont = none := rfl

theorem repElems_nil (f : Nat) (acc : Str) : repElems f acc [] KP = none := by
  cases f with
  | zero => rfl
  | succ g => rfl

theorem repElems_ten (f : Nat) (acc : Str) : repElems f acc [10] KP = none := by
  induction f generalizing acc with
  | zero => rfl
  | succ g ih =>
    rw [repElems]
    rw [orSome_none (matchParamElem_ten (repElems_nil g _))]
    rfl

theorem repElems_stop (f : Nat) (acc : Str) :
    repElems f acc [13, 10] KP = some (some acc, none, []) := by
  cases f with
  | zero => rfl
  | succ g =>
    rw [repElems]
    rw [orSome_none (matchParamElem_crlfOnly (repElems_nil g _) (repElems_ten g _))]
    rfl

theorem repElems_colonTail (f : Nat) (acc : Str) {w : Str} {r : List Nat}
    (h13 : 13 ∉ w) (h10 : 10 ∉ w) :
    repElems f acc (32 :: 58 :: w ++ 13 :: 10 :: r) KP = some (some acc, some w, r) := by
  cases f with
  | zero =>
    show KP acc _ = _
    exact afterParams_colon h13 h10
  | succ g =>
    rw [repElems]
    simp only [List.cons_append]
    rw [orSome_none matchParamElem_colonAfterSp]
    exact afterParams_colon h13 h10

theorem repElems_lastTok (f : Nat) (acc : Str) {t : Str} (htok : TokOk t) :
    repElems (f + 1) acc (32 :: t ++ [13, 10]) KP =
      some (some (acc ++ 32 :: t), none, []) := by
  rw [repElems]
  apply orSome_some
  apply matchParamElem_sp_end htok
  · exact repElems_nil f _
  · exact repElems_ten f _
  · exact repElems_stop f _

theorem repElems_chain {T : List Nat} {out : Str → Option Str × Option Str × List Nat}
    (hT : T.head? = some 32) (ts : List Str) :
    ∀ (f : Nat) (acc : Str), ts.length ≤ f →
      (∀ t ∈ ts, TokOk t) →
      (∀ acc', repElems (f - ts.length) acc' T KP = some (out acc')) →
      repElems f acc (chainBytes ts T) KP =
        some (out (acc ++ (ts.map (fun t => 32 :: t)).flatten)) := by
  induction ts with
  | nil =>
    intro f acc _ _ hstop
    simpa [chainBytes] using hstop acc
  | cons t ts' ih =>
    intro f acc hlen htok hstop
    cases f with
    | zero => simp at hlen
    | succ g =>
      have hstop' : ∀ acc', repElems (g - ts'.length) acc' T KP = some (out acc') := by
        intro acc'
        have he : g - ts'.length = g + 1 - (ts'.length + 1) := by omega
        rw [he]
        simpa using hstop acc'
      show repElems (g + 1) acc (32 :: t ++ chainBytes ts' T) KP = _
      rw [repElems]
      apply orSome_some
      apply matchParamElem_sp_cons (htok t (by simp))
      · cases ts' with
        | nil => simpa [chainBytes] using hT
        | cons t2 tt => rfl
      · show repElems g (acc ++ (32 :: t)) (chainBytes ts' T) KP = _
        rw [ih g (acc ++ 32 :: t) (by simpa using hlen)
          (fun x hx => htok x (by simp [hx])) hstop']
        simp [List.append_assoc]

theorem matchParamsGroup_nilRun {l : List Nat} {k : Option Str → List Nat → Option β}
    (h : l.takeWhile isSp = []) : matchParamsGroup l k = k none l := by
  unfold matchParamsGroup
  rw [orSome_none (greedyPlus_nilRun h)]

theorem matchParamsGroup_colon {rest : List Nat}
    {k : Option Str → List Nat → Option β} :
    matchParamsGroup (32 :: 58 :: rest) k = k none (32 :: 58 :: rest) := rfl

theorem matchParamsGroup_run {t1 : Str} {rest : List Nat}
    {v : Option Str × Option Str × List Nat}
    (htok : TokOk t1) (hrest : rest.head? = some 32)
    (h : repElems 13 t1 rest KP = some v) :
    matchParamsGroup (32 :: t1 ++ rest) afterParams = some v := by
  obtain ⟨c, t', et, hc, hcsp, ht'⟩ := tokOk_head htok
  subst et
  unfold matchParamsGroup
  apply orSome_some
  show greedyPlus isSp ([32] ++ c :: (t' ++ rest)) _ = some v
  apply greedyPlus_first (by simp) (by intro x hx; simp at hx; simp [hx, isSp])
    (by simpa [isSp] using hcsp)
  show matchParamElem ((c :: t') ++ rest) _ = some v
  apply matchParamElem_noSp_cons htok hrest
  exact h

theorem matchParamsGroup_end {t1 : Str} {v : Option Str × Option Str × List Nat}
    (htok : TokOk t1)
    (h : repElems 13 t1 [13, 10] KP = some v) :
    matchParamsGroup (32 :: t1 ++ [13, 10]) afterParams = some v := by
  obtain ⟨c, t', et, hc, hcsp, ht'⟩ := tokOk_head htok
  subst et
  unfold matchParamsGroup
  apply orSome_some
  show greedyPlus isSp ([32] ++ c :: (t' ++ [13, 10])) _ = some v
  apply greedyPlus_first (by simp) (by intro x hx; simp at hx; simp [hx, isSp])
    (by simpa [isSp] using hcsp)
  show matchParamElem ((c :: t') ++ [13, 10]) _ = some v
  apply matchParamElem_noSp_end htok
  · exact repElems_nil 13 _
  · exact repElems_ten 13 _
  · exact h

theorem matchCommandLine_sp {c : Str} {rr : List Nat}
    {x : Option Str × Option Str × List Nat}
    (hne : c ≠ []) (hc : ∀ b ∈ c, nSp b = true)
    (h : matchParamsGroup (32 :: rr) afterParams = some x) :
    matchCommandLine (c ++ 32 :: rr) = some (c, x) := by
  unfold matchCommandLine
  apply greedyPlus_first hne hc (by simp [nSp])
  show (matchParamsGroup (32 :: rr) afterParams).map _ = some (c, x)
  rw [h]
  rfl

theorem matchCommandLine_bare {c : Str} (hne : c ≠ []) (hc : ∀ b ∈ c, nSp b = true) :
    matchCommandLine (c ++ [13, 10]) = some (c, none, none, []) := by
  unfold matchCommandLine
  apply greedyPlus_two hne hc (by simp [nSp]) (by simp [nSp])
  · rfl
  · rfl
  · rfl

theorem matchUserBranch_none {l : List Nat}
    {k0 : Str → Str → Str → List Nat → Option β} (h : 33 ∉ l) :
    matchUserBranch l k0 = none := by
  unfold matchUserBranch
  exact plusThenLit_none h

theorem matchPrefixGroup_server {s : Str} {c0 : Nat} {rr : List Nat}
    {k : PrefCap → List Nat → Option β} {v : β}
    (hne : s ≠ []) (hs : ∀ b ∈ s, nSp b = true)
    (hbang : 33 ∉ s ++ 32 :: c0 :: rr) (hc0 : isSp c0 = false)
    (hk : k (.serverPfx s) (c0 :: rr) = some v) :
    matchPrefixGroup (58 :: s ++ 32 :: c0 :: rr) k = some v := by
  unfold matchPrefixGroup
  show orSome (litb 58 (58 :: (s ++ 32 :: c0 :: rr)) _) _ = some v
  rw [litb_eq]
  apply orSome_some
  show orSome (matchUserBranch (s ++ 32 :: c0 :: rr) _) _ = some v
  rw [orSome_none (matchUserBranch_none hbang)]
  show greedyPlus nSp (s ++ 32 :: c0 :: rr) _ = some v
  apply greedyPlus_first hne hs (by simp [nSp])
  exact spacesThen_single hc0 hk

theorem matchPrefixGroup_user {n u s : Str} {c0 : Nat} {rr : List Nat}
    {k : PrefCap → List Nat → Option β} {v : β}
    (hn : n ≠ []) (hnb : 33 ∉ n) (hu : u ≠ []) (hua : 64 ∉ u)
    (hs : s ≠ []) (hssp : ∀ b ∈ s, nSp b = true) (hc0 : isSp c0 = false)
    (hk : k (.userPfx n u s) (c0 :: rr) = some v) :
    matchPrefixGroup (58 :: n ++ 33 :: u ++ 64 :: s ++ 32 :: c0 :: rr) k = some v := by
  have hnb' : ∀ b ∈ n, nBang b = true := by
    intro b hb
    simp only [nBang, Bool.not_eq_true', beq_eq_false_iff_ne, ne_eq]
    intro hh
    exact hnb (hh ▸ hb)
  have hua' : ∀ b ∈ u, nAt b = true := by
    intro b hb
    simp only [nAt, Bool.not_eq_true', beq_eq_false_iff_ne, ne_eq]
    intro hh
    exact hua (hh ▸ hb)
  unfold matchPrefixGroup
  simp only [List.cons_append, List.append_assoc]
  rw [litb_eq]
  apply orSome_some
  apply orSome_some
  unfold matchUserBranch
  apply greedyPlus_first hn hnb' (by simp [nBang])
  show litb 33 (33 :: (u ++ 64 :: (s ++ 32 :: c0 :: rr))) _ = some v
  rw [litb_eq]
  apply greedyPlus_first hu hua' (by simp [nAt])
  show litb 64 (64 :: (s ++ 32 :: c0 :: rr)) _ = some v
  rw [litb_eq]
  apply greedyPlus_first hs hssp (by simp [nSp])
  exact spacesThen_single hc0 hk

/-!
Support lemmas: CRLF scanning, decimal rendering, `u16` parsing, and
whitespace splitting.
-/

theorem crlfPos_append {body : Str} (r : List Nat) (h13 : 13 ∉ body) :
    crlfPos (body ++ 13 :: 10 :: r) = some body.length := by
  induction body with
  | nil => simp [crlfPos]
  | cons b t ih =>
    have hb : b ≠ 13 := by intro hh; exact h13 (by simp [hh])
    have ht : 13 ∉ t := fun hx => h13 (by simp [hx])
    show crlfPos (b :: (t ++ 13 :: 10 :: r)) = some (t.length + 1)
    unfold crlfPos
    rw [if_neg (by simp [hb])]
    rw [ih ht]
    rfl

theorem crlfPos_some_hasPair {l : List Nat} {k : Nat} (h : crlfPos l = some k) :
    [13, 10] <:+: l := by
  induction l generalizing k with
  | nil => simp [crlfPos] at h
  | cons b t ih =>
    unfold crlfPos at h
    split at h
    · next hc =>
      obtain ⟨hb, hh⟩ := hc
      subst hb
      cases t with
      | nil => simp at hh
      | cons c tt =>
        have : c = 10 := by simpa using hh
        subst this
        exact ⟨[], tt, rfl⟩
    · next hc =>
      cases hcp : crlfPos t with
      | none => rw [hcp] at h; simp at h
      | some k' =>
        obtain ⟨pre, suf, hps⟩ := ih hcp
        exact ⟨b :: pre, suf, by simp [hps]⟩

theorem decDigits_digits (n : Nat) : ∀ b ∈ decDigits n, 48 ≤ b ∧ b ≤ 57 := by
  induction n using Nat.strong_induction_on with
  | _ n ih =>
    intro b hb
    rw [decDigits] at hb
    split at hb
    · next h =>
      simp only [List.mem_singleton] at hb
      omega
    · next h =>
      rcases List.mem_append.mp hb with h1 | h1
      · exact ih (n / 10) (Nat.div_lt_self (by omega) (by omega)) b h1
      · simp only [List.mem_singleton] at h1
        have := Nat.mod_lt n (show 0 < 10 by omega)
        omega

theorem decDigits_len1 (n : Nat) : 1 ≤ (decDigits n).length := by
  rw [decDigits]
  split <;> simp

theorem decDigits_len2 {n : Nat} (h : 10 ≤ n) : 2 ≤ (decDigits n).length := by
  rw [decDigits]
  split
  · omega
  · have := decDigits_len1 (n / 10)
    simp only [List.length_append, List.length_singleton]
    omega

theorem decDigits_len3 {n : Nat} (h : 100 ≤ n) : 3 ≤ (decDigits n).length := by
  rw [decDigits]
  split
  · omega
  · have h10 : 10 ≤ n / 10 := (Nat.le_div_iff_mul_le (by omega)).mpr (by omega)
    have := decDigits_len2 h10
    simp only [List.length_append, List.length_singleton]
    omega

theorem decDigits_len4 {n : Nat} (h : 1000 ≤ n) : 4 ≤ (decDigits n).length := by
  rw [decDigits]
  split
  · omega
  · have h100 : 100 ≤ n / 10 := (Nat.le_div_iff_mul_le (by omega)).mpr (by omega)
    have := decDigits_len3 h100
    simp only [List.length_append, List.length_singleton]
    omega

theorem decDigits_length_le {n : Nat} (h : n ≤ 999) : (decDigits n).length ≤ 3 := by
  rw [decDigits]
  split
  · simp
  · next h10 =>
    rw [decDigits]
    split
    · next h' => simp
    · next h100 =>
      rw [decDigits]
      split
      · next h'' => simp
      · next h1000 =>
        exfalso
        have hx : 10 ≤ n / 10 / 10 := by omega
        rw [Nat.div_div_eq_div_mul] at hx
        have := (Nat.le_div_iff_mul_le (show 0 < 100 by omega)).mp hx
        omega

theorem pad3_length_eq3 {n : Nat} (h : n ≤ 999) : (pad3 n).length = 3 := by
  unfold pad3
  have h1 := decDigits_len1 n
  have h3 := decDigits_length_le h
  simp only [List.length_append, List.length_replicate]
  omega

theorem pad3_length_ge4 {n : Nat} (h : 1000 ≤ n) : 4 ≤ (pad3 n).length := by
  unfold pad3
  have h4 := decDigits_len4 h
  simp only [List.length_append, List.length_replicate]
  omega

theorem pad3_digits {n : Nat} : ∀ b ∈ pad3 n, 48 ≤ b ∧ b ≤ 57 := by
  intro b hb
  unfold pad3 at hb
  rcases List.mem_append.mp hb with h | h
  · have := List.eq_of_mem_replicate h
    omega
  · exact decDigits_digits n b h

theorem foldl_val_le (t : List Nat) : ∀ a : Nat,
    a ≤ List.foldl (fun a b => a * 10 + (b - 48)) a t := by
  induction t with
  | nil => intro a; simp
  | cons b t' ih =>
    intro a
    calc a ≤ a * 10 + (b - 48) := by omega
      _ ≤ _ := ih _

theorem foldl_digits_ok (l : List Nat) : ∀ v : Nat,
    (∀ b ∈ l, 48 ≤ b ∧ b ≤ 57) →
    List.foldl (fun a b => a * 10 + (b - 48)) v l ≤ 65535 →
    List.foldl (fun acc b =>
      match acc with
      | none => none
      | some v' =>
        if 48 ≤ b ∧ b ≤ 57 then
          if v' * 10 + (b - 48) ≤ 65535 then some (v' * 10 + (b - 48)) else none
        else none) (some v) l =
      some (List.foldl (fun a b => a * 10 + (b - 48)) v l) := by
  induction l with
  | nil => intro v _ _; rfl
  | cons b t ih =>
    intro v hd hle
    have hb := hd b (by simp)
    have hstep : v * 10 + (b - 48) ≤ 65535 :=
      le_trans (foldl_val_le t (v * 10 + (b - 48))) (by simpa using hle)
    show List.foldl _ (if 48 ≤ b ∧ b ≤ 57 then _ else none) t = _
    rw [if_pos hb, if_pos hstep]
    exact ih _ (fun x hx => hd x (by simp [hx])) (by simpa using hle)

theorem foldl_decDigits (n : Nat) : ∀ v : Nat,
    List.foldl (fun a b => a * 10 + (b - 48)) v (decDigits n) =
      v * 10 ^ (decDigits n).length + n := by
  induction n using Nat.strong_induction_on with
  | _ n ih =>
    intro v
    rw [decDigits]
    split
    · next h => simp [Nat.pow_one]
    · next h =>
      rw [List.foldl_append]
      rw [ih (n / 10) (Nat.div_lt_self (by omega) (by omega)) v]
      simp only [List.foldl_cons, List.foldl_nil, List.length_append,
        List.length_singleton]
      have hmod : n % 10 + 48 - 48 = n % 10 := by omega
      rw [hmod, pow_succ]
      have : v * (10 ^ (decDigits (n / 10)).length * 10) =
          v * 10 ^ (decDigits (n / 10)).length * 10 := by ring
      rw [this]
      have hdm := Nat.div_add_mod n 10
      omega

theorem foldl_replicate48 (k : Nat) : ∀ v : Nat,
    List.foldl (fun a b => a * 10 + (b - 48)) v (List.replicate k 48) = v * 10 ^ k := by
  induction k with
  | zero => intro v; simp
  | succ k' ih =>
    intro v
    rw [List.replicate_succ, List.foldl_cons, ih]
    have : (48 : Nat) - 48 = 0 := by omega
    rw [this, pow_succ]
    ring

theorem parseU16_pad3 {n : Nat} (h : n < 65536) : parseU16 (pad3 n) = some n := by
  have hne : pad3 n ≠ [] := by
    intro hcontra
    have h1 := decDigits_len1 n
    unfold pad3 at hcontra
    have := congrArg List.length hcontra
    simp only [List.length_append, List.length_replicate, List.length_nil] at this
    omega
  have hval : List.foldl (fun a b => a * 10 + (b - 48)) 0 (pad3 n) = n := by
    unfold pad3
    rw [List.foldl_append, foldl_replicate48, foldl_decDigits]
    simp
  unfold parseU16
  have hmatch : (match pad3 n with
      | 43 :: rest => rest
      | _ => pad3 n) = pad3 n := by
    split
    · next heq =>
      exfalso
      have h43 : (43 : Nat) ∈ pad3 n := by rw [heq]; simp
      have := pad3_digits 43 h43
      omega
    · rfl
  rw [hmatch]
  rw [if_neg (by simpa [List.isEmpty_iff] using hne)]
  rw [foldl_digits_ok (pad3 n) 0 pad3_digits (by rw [hval]; omega)]
  rw [hval]

theorem splitWsGo_token {t : Str} (l : List Nat) (acc : Str)
    (ht : ∀ b ∈ t, isAsciiWs b = false) :
    splitWsGo (t ++ l) acc = splitWsGo l (t.reverse ++ acc) := by
  induction t generalizing acc with
  | nil => simp
  | cons b t' ih =>
    have hb : isAsciiWs b = false := ht b (by simp)
    show splitWsGo (b :: (t' ++ l)) acc = splitWsGo l ((b :: t').reverse ++ acc)
    rw [show splitWsGo (b :: (t' ++ l)) acc = splitWsGo (t' ++ l) (b :: acc) from by
      rw [splitWsGo, hb]
      simp]
    rw [ih (b :: acc) (fun x hx => ht x (by simp [hx]))]
    simp

theorem splitWsGo_sep {l : List Nat} {acc : Str} (hne : acc ≠ []) :
    splitWsGo (32 :: l) acc = acc.reverse :: splitWsGo l [] := by
  rw [splitWsGo]
  rw [show isAsciiWs 32 = true from rfl]
  simp [List.isEmpty_iff, hne]

theorem splitWsGo_chain (ts : List Str) : ∀ t1 : Str, t1 ≠ [] →
    (∀ b ∈ t1, isAsciiWs b = false) →
    (∀ t ∈ ts, t ≠ [] ∧ ∀ b ∈ t, isAsciiWs b = false) →
    splitWsGo (t1 ++ (ts.map (fun t => 32 :: t)).flatten) [] = t1 :: ts := by
  induction ts with
  | nil =>
    intro t1 hne hws _
    show splitWsGo (t1 ++ []) [] = [t1]
    rw [splitWsGo_token [] [] hws]
    rw [show splitWsGo ([] : List Nat) (t1.reverse ++ []) =
      (if (t1.reverse ++ []).isEmpty = true then []
       else [(t1.reverse ++ []).reverse]) from by rw [splitWsGo]]
    rw [if_neg (by simp [List.isEmpty_iff, hne])]
    simp
  | cons t2 tss ih =>
    intro t1 hne hws hts
    show splitWsGo (t1 ++ (32 :: t2 ++ (tss.map (fun t => 32 :: t)).flatten)) [] = _
    rw [show (32 :: t2 ++ (tss.map (fun t => 32 :: t)).flatten : List Nat) =
      32 :: (t2 ++ (tss.map (fun t => 32 :: t)).flatten) from by simp]
    rw [splitWsGo_token _ [] hws]
    rw [splitWsGo_sep (by simp [hne])]
    obtain ⟨h2ne, h2ws⟩ := hts t2 (by simp)
    rw [ih t2 h2ne h2ws (fun x hx => hts x (by simp [hx]))]
    simp

theorem paramsFold_len (l : List Str) : ∀ a : Nat,
    List.foldl (fun acc cur => acc + cur.length + 1) a l =
      a + ((l.map (fun t => 32 :: t)).flatten).length := by
  induction l with
  | nil => intro a; simp
  | cons t ts ih =>
    intro a
    simp only [List.foldl_cons, List.map_cons, List.flatten_cons, List.length_append,
      List.length_cons]
    rw [ih]
    omega

theorem wireBody_length (p : Option Pfx) (c : Command) (ps : Option (List Str))
    (lp : Option Str) (hc : cmdWidth3 c) :
    (wireBody ⟨p, c, ps, lp⟩).length + 2 +
      (match p with | some (.User _) => 1 | _ => 0) =
      Message.calc_len p c ps lp := by
  cases c with
  | General s =>
    cases p with
    | none =>
      cases ps <;> cases lp <;>
        (simp only [wireBody, prefixBytes, commandBytes, paramsBytes, lastBytes,
          Message.calc_len, paramsFold_len, List.length_append, List.length_cons,
          List.length_nil, List.append_nil, List.nil_append]; try omega)
    | some pf =>
      cases pf <;> (cases ps <;> cases lp <;>
        (simp only [wireBody, prefixBytes, commandBytes, paramsBytes, lastBytes,
          Message.calc_len, paramsFold_len, List.length_append, List.length_cons,
          List.length_nil, List.append_nil, List.nil_append]; try omega))
  | Numeric n =>
    have h3 : (pad3 n).length = 3 := pad3_length_eq3 hc
    cases p with
    | none =>
      cases ps <;> cases lp <;>
        (simp only [wireBody, prefixBytes, commandBytes, paramsBytes, lastBytes,
          Message.calc_len, paramsFold_len, List.length_append, List.length_cons,
          List.length_nil, List.append_nil, List.nil_append, h3]; try omega)
    | some pf =>
      cases pf <;> (cases ps <;> cases lp <;>
        (simp only [wireBody, prefixBytes, commandBytes, paramsBytes, lastBytes,
          Message.calc_len, paramsFold_len, List.length_append, List.length_cons,
          List.length_nil, List.append_nil, List.nil_append, h3]; try omega))

theorem flatten_chain (ts' : List Str) (t1 : Str) (R : List Nat) :
    ((t1 :: ts').map (fun t => 32 :: t)).flatten ++ R =
      32 :: t1 ++ chainBytes ts' R := by
  induction ts' generalizing t1 with
  | nil => simp [chainBytes]
  | cons t2 tss ih =>
    show (32 :: t1 ++ ((t2 :: tss).map (fun t => 32 :: t)).flatten) ++ R =
      32 :: t1 ++ chainBytes (t2 :: tss) R
    rw [show chainBytes (t2 :: tss) R = 32 :: t2 ++ chainBytes tss R from rfl]
    rw [← ih t2]
    simp

theorem chainBytes_concat (mid : List Str) (tk : Str) (T : List Nat) :
    chainBytes (mid ++ [tk]) T = chainBytes mid (32 :: tk ++ T) := by
  unfold chainBytes
  rw [List.foldr_append]
  rfl

theorem new_ok_extract {p : Option Pfx} {c : Command} {ps : Option (List Str)}
    {lp : Option Str} {m : Message}
    (h : Message.new p c ps lp = .ok m) :
    prefixBad p = false ∧ commandBad c = false ∧ paramsBad ps = false ∧
      paramsOverflow ps = false ∧ lastBad lp = false ∧
      Message.calc_len p c ps lp ≤ 512 ∧ m = ⟨p, c, ps, lp⟩ := by
  unfold Message.new at h
  split at h
  · exact absurd h (by simp)
  · split at h
    · exact absurd h (by simp)
    · split at h
      · exact absurd h (by simp)
      · split at h
        · exact absurd h (by simp)
        · split at h
          · exact absurd h (by simp)
          · split at h
            · exact absurd h (by simp)
            · next h1 h2 h3 h4 h5 h6 =>
              refine ⟨by simpa using h1, by simpa using h2, by simpa using h3,
                by simpa using h4, by simpa using h5, by omega, ?_⟩
              exact (Except.ok.injEq _ _ ▸ h).symm

theorem toks_ok {l : List Str} (hbad : paramsBad (some l) = false)
    (hok : PsOk (some l)) : ∀ t ∈ l, TokOk t := by
  intro t ht
  obtain ⟨-, hall⟩ := hok
  obtain ⟨hne, hws⟩ := hall t ht
  refine ⟨hne, ?_, hws⟩
  simp only [paramsBad, List.any_eq_false] at hbad
  have hb := hbad t ht
  simp only [Bool.or_eq_true, not_or, beq_iff_eq] at hb
  exact hb.2

theorem matchCommandLine_wire (c : Command) (ps : Option (List Str)) (lp : Option Str)
    (hcBne : commandBytes c ≠ []) (hcBsp : ∀ b ∈ commandBytes c, nSp b = true)
    (hps : PsOk ps) (hpsBad : paramsBad ps = false) (hpsOv : paramsOverflow ps = false)
    (hlp : LpOk lp) :
    matchCommandLine (commandBytes c ++ (paramsBytes ps ++ (lastBytes lp ++ [13, 10]))) =
      some (commandBytes c, psSpan ps, lp, []) := by
  cases ps with
  | none =>
    cases lp with
    | none =>
      show matchCommandLine (commandBytes c ++ ([] ++ ([] ++ [13, 10]))) =
        some (commandBytes c, none, none, [])
      rw [List.nil_append, List.nil_append]
      exact matchCommandLine_bare hcBne hcBsp
    | some w =>
      obtain ⟨h13, h10⟩ := hlp
      show matchCommandLine (commandBytes c ++ ([] ++ ((32 :: 58 :: w : List Nat) ++ [13, 10]))) =
        some (commandBytes c, none, some w, [])
      rw [List.nil_append]
      rw [show ((32 :: 58 :: w : List Nat) ++ [13, 10]) =
        32 :: (58 :: (w ++ [13, 10])) from by simp]
      apply matchCommandLine_sp hcBne hcBsp
      rw [matchParamsGroup_colon]
      rw [show (32 :: 58 :: (w ++ [13, 10]) : List Nat) =
        32 :: 58 :: w ++ 13 :: 10 :: [] from by simp]
      exact afterParams_colon h13 h10
  | some l =>
    have htoks := toks_ok hpsBad hps
    obtain ⟨hlne, -⟩ := hps
    have hlen14 : l.length ≤ 14 := by
      simpa [paramsOverflow] using hpsOv
    cases l with
    | nil => exact absurd rfl hlne
    | cons t1 ts' =>
      have htok1 : TokOk t1 := htoks t1 (by simp)
      have htoks' : ∀ t ∈ ts', TokOk t := fun t ht => htoks t (by simp [ht])
      have hlen' : ts'.length ≤ 13 := by simpa using hlen14
      show matchCommandLine (commandBytes c ++
        (paramsBytes (some (t1 :: ts')) ++ (lastBytes lp ++ [13, 10]))) =
        some (commandBytes c, some (t1 ++ (ts'.map (fun t => 32 :: t)).flatten), lp, [])
      cases lp with
      | some w =>
        obtain ⟨h13, h10⟩ := hlp
        rw [show paramsBytes (some (t1 :: ts')) ++ (lastBytes (some w) ++ [13, 10]) =
            32 :: (t1 ++ chainBytes ts' (32 :: 58 :: w ++ 13 :: 10 :: [])) from by
          show ((t1 :: ts').map (fun t => 32 :: t)).flatten ++
            ((32 :: 58 :: w : List Nat) ++ [13, 10]) = _
          rw [show ((32 :: 58 :: w : List Nat) ++ [13, 10]) =
            (32 :: 58 :: w ++ 13 :: 10 :: [] : List Nat) from by simp]
          rw [flatten_chain]
          simp]
        apply matchCommandLine_sp hcBne hcBsp
        apply matchParamsGroup_run htok1
        · cases ts' with
          | nil => rfl
          | cons a b => rfl
        · exact @repElems_chain (32 :: 58 :: w ++ 13 :: 10 :: [])
            (fun acc' => (some acc', some w, [])) (by simp) ts' 13 t1 hlen' htoks'
            (fun acc' => repElems_colonTail (13 - ts'.length) acc' h13 h10)
      | none =>
        cases hts' : ts'.reverse with
        | nil =>
          have hnil : ts' = [] := by simpa using congrArg List.reverse hts'
          subst hnil
          rw [show paramsBytes (some [t1]) ++ (lastBytes none ++ [13, 10]) =
              32 :: (t1 ++ [13, 10]) from by simp [paramsBytes, lastBytes]]
          apply matchCommandLine_sp hcBne hcBsp
          have := matchParamsGroup_end htok1 (repElems_stop 13 t1)
          simpa using this
        | cons tk midrev =>
          have hts'eq : ts' = midrev.reverse ++ [tk] := by
            have := congrArg List.reverse hts'
            simpa using this
          subst hts'eq
          have htokk : TokOk tk := htoks' tk (by simp)
          have htoksm : ∀ t ∈ midrev.reverse, TokOk t :=
            fun t ht => htoks' t (by simp [ht])
          have hlenm : midrev.reverse.length ≤ 12 := by
            have := hlen'
            simp only [List.length_append, List.length_reverse,
              List.length_singleton] at this ⊢
            omega
          rw [show paramsBytes (some (t1 :: (midrev.reverse ++ [tk]))) ++
              (lastBytes none ++ [13, 10]) =
              32 :: (t1 ++ chainBytes midrev.reverse (32 :: tk ++ [13, 10])) from by
            show ((t1 :: (midrev.reverse ++ [tk])).map (fun t => 32 :: t)).flatten ++
              (([] : List Nat) ++ [13, 10]) = _
            rw [List.nil_append, flatten_chain, chainBytes_concat]
            simp]
          apply matchCommandLine_sp hcBne hcBsp
          apply matchParamsGroup_run htok1
          · cases midrev.reverse with
            | nil => rfl
            | cons a b => rfl
          · have hstop : ∀ acc', repElems (13 - midrev.reverse.length) acc'
                (32 :: tk ++ [13, 10]) KP = some (some (acc' ++ 32 :: tk), none, []) := by
              intro acc'
              obtain ⟨g, hg⟩ : ∃ g, 13 - midrev.reverse.length = g + 1 :=
                ⟨12 - midrev.reverse.length, by omega⟩
              rw [hg]
              exact repElems_lastTok g acc' htokk
            have hrep := @repElems_chain (32 :: tk ++ [13, 10])
              (fun acc' => (some (acc' ++ 32 :: tk), none, [])) (by simp)
              midrev.reverse 13 t1 (by omega) htoksm hstop
            rw [hrep]
            simp [List.append_assoc]

theorem nsp_of_not_mem {s : Str} (h : 32 ∉ s) : ∀ b ∈ s, nSp b = true := by
  intro b hb
  have : b ≠ 32 := fun hh => h (hh ▸ hb)
  simp [nSp, this]

theorem matchMessage_wire (p : Option Pfx) (c : Command) (ps : Option (List Str))
    (lp : Option Str)
    (hcBne : commandBytes c ≠ []) (hcBsp : ∀ b ∈ commandBytes c, nSp b = true)
    (hps : PsOk ps) (hpsBad : paramsBad ps = false) (hpsOv : paramsOverflow ps = false)
    (hlp : LpOk lp)
    (hpfx : PfxOk p c ps lp)
    (hpBad : prefixBad p = false)
    (hnoCol : p = none → (commandBytes c).head? ≠ some 58) :
    matchMessage (prefixBytes p ++
        (commandBytes c ++ (paramsBytes ps ++ (lastBytes lp ++ [13, 10])))) =
      some (pcOf p, commandBytes c, psSpan ps, lp, []) := by
  have hcl := matchCommandLine_wire c ps lp hcBne hcBsp hps hpsBad hpsOv hlp
  obtain ⟨d, ds, hd⟩ : ∃ d ds, commandBytes c = d :: ds := by
    cases he : commandBytes c with
    | nil => exact absurd he hcBne
    | cons d ds => exact ⟨d, ds, rfl⟩
  have hdsp : isSp d = false := by
    have := hcBsp d (by simp [hd])
    simpa [nSp, isSp] using this
  cases p with
  | none =>
    show matchMessage ([] ++ _) = _
    rw [List.nil_append]
    unfold matchMessage
    rw [matchPrefixGroup_none (by
      rw [hd]
      show (d :: (ds ++ _)).head? ≠ some 58
      have := hnoCol rfl
      rw [hd] at this
      simpa using this)]
    show (matchCommandLine _).map _ = _
    rw [hcl]
    rfl
  | some pf =>
    cases pf with
    | Server s =>
      obtain ⟨hsne, hbang⟩ := hpfx
      have hssp : ∀ b ∈ s, nSp b = true := by
        apply nsp_of_not_mem
        have := spc_false (by simpa [prefixBad] using hpBad)
        exact this.1
      rw [hd] at hcl hbang ⊢
      rw [show prefixBytes (some (.Server s)) ++
          (d :: ds ++ (paramsBytes ps ++ (lastBytes lp ++ [13, 10]))) =
          58 :: s ++ 32 :: d :: (ds ++ (paramsBytes ps ++ (lastBytes lp ++ [13, 10])))
          from by
        show (58 :: s ++ [32] : List Nat) ++ _ = _
        simp]
      unfold matchMessage
      apply matchPrefixGroup_server hsne hssp (by simpa using hbang) hdsp
      show (matchCommandLine (d :: (ds ++ (paramsBytes ps ++ (lastBytes lp ++ [13, 10]))))).map
        _ = _
      rw [show (d :: (ds ++ (paramsBytes ps ++ (lastBytes lp ++ [13, 10]))) : List Nat) =
        d :: ds ++ (paramsBytes ps ++ (lastBytes lp ++ [13, 10])) from by simp]
      rw [hcl]
      rfl
    | User u => exact absurd hpfx (by simp [PfxOk])

theorem pad3_head (n : Nat) : ∃ d ds, pad3 n = d :: ds ∧ 48 ≤ d ∧ d ≤ 57 := by
  cases he : pad3 n with
  | nil =>
    exfalso
    have h1 := decDigits_len1 n
    have := congrArg List.length he
    unfold pad3 at this
    simp only [List.length_append, List.length_replicate, List.length_nil] at this
    omega
  | cons d ds =>
    have hd : d ∈ pad3 n := by rw [he]; simp
    obtain ⟨h1, h2⟩ := pad3_digits d hd
    exact ⟨d, ds, rfl, h1, h2⟩

theorem commandBytes_facts {p : Option Pfx} {c : Command}
    (hcmd : CmdOk p c) (hcBad : commandBad c = false) :
    commandBytes c ≠ [] ∧ (∀ b ∈ commandBytes c, nSp b = true) ∧
      13 ∉ commandBytes c ∧ cmdWidth3 c ∧
      (p = none → (commandBytes c).head? ≠ some 58) := by
  cases c with
  | General s =>
    obtain ⟨hne, hpu, hcol⟩ := hcmd
    have hspc := spc_false (by simpa [commandBad] using hcBad)
    refine ⟨hne, nsp_of_not_mem hspc.1, hspc.2.1, trivial, fun hp => hcol hp⟩
  | Numeric n =>
    have h999 : n ≤ 999 := hcmd
    obtain ⟨d, ds, hd, hd1, hd2⟩ := pad3_head n
    refine ⟨?_, ?_, ?_, h999, ?_⟩
    · show pad3 n ≠ []
      rw [hd]
      simp
    · intro b hb
      have := pad3_digits b hb
      simp only [nSp, Bool.not_eq_true', beq_eq_false_iff_ne, ne_eq]
      omega
    · intro hmem
      have := pad3_digits 13 hmem
      omega
    · intro _
      show (pad3 n).head? ≠ some 58
      rw [hd]
      intro hcontra
      simp only [List.head?_cons, Option.some.injEq] at hcontra
      omega

theorem wireBody_no13 {p : Option Pfx} {c : Command} {ps : Option (List Str)}
    {lp : Option Str}
    (hpBad : prefixBad p = false) (hpfxUser : ∀ u, p ≠ some (.User u))
    (hcB13 : 13 ∉ commandBytes c)
    (hpsBad : paramsBad ps = false) (hlp : LpOk lp) :
    13 ∉ wireBody ⟨p, c, ps, lp⟩ := by
  intro hmem
  unfold wireBody at hmem
  simp only [List.mem_append] at hmem
  rcases hmem with ((hpm | hcm) | hpsm) | hlm
  · cases p with
    | none => simp [prefixBytes] at hpm
    | some pf =>
      cases pf with
      | Server s =>
        have hspc := spc_false (by simpa [prefixBad] using hpBad)
        simp only [prefixBytes] at hpm
        rcases List.mem_append.mp hpm with h | h
        · rcases List.mem_cons.mp h with h2 | h2
          · omega
          · exact hspc.2.1 h2
        · simp at h
      | User u => exact hpfxUser u rfl
  · exact hcB13 hcm
  · cases ps with
    | none => simp [paramsBytes] at hpsm
    | some l =>
      simp only [paramsBytes, List.mem_flatten, List.mem_map] at hpsm
      obtain ⟨piece, ⟨t, htl, rfl⟩, hmem2⟩ := hpsm
      simp only [List.mem_cons] at hmem2
      rcases hmem2 with h | h
      · omega
      · simp only [paramsBad, List.any_eq_false] at hpsBad
        have hb := hpsBad t htl
        simp only [Bool.or_eq_true, not_or] at hb
        have := spc_false (by simpa using hb.1)
        exact this.2.1 h
  · cases lp with
    | none => simp [lastBytes] at hlm
    | some w =>
      simp only [lastBytes, List.mem_cons] at hlm
      rcases hlm with h | h | h
      · omega
      · omega
      · exact hlp.1 h

theorem parse_eval {input : List Nat} {L : Nat} {pc : PrefCap} {cmd : Str}
    {psc : Option Str} {lpc : Option Str}
    (hpos : crlfPos input = some L) (hle : ¬ L > 510)
    (hmm : matchMessage input = some (pc, cmd, psc, lpc, []))
    (hne : input.length ≠ 0) :
    Message.parse input = .ok (some (capsToMessage pc cmd psc lpc, L)) := by
  unfold Message.parse
  simp only [hpos]
  rw [if_neg hle]
  simp only [hmm, List.length_nil, Nat.sub_zero]
  rw [if_neg (by simpa using hne)]

/-- Amended claim C1 (round-trip): for a Message accepted by the validating
constructor whose shape additionally survives the grammar — command
non-empty, not u16-numeric-looking when `General`, at most three digits when
`Numeric`; prefix absent or a bang-free server name (a `User` prefix never
round-trips because `to_bytes` omits the separating space); middles a
non-empty list of whitespace-free tokens; trailing free of CR and LF —
`parse (to_bytes m)` succeeds and returns a Message equal to `m` in all four
fields, consuming `to_bytes(m).length - 2` bytes (the terminating CRLF is
not counted by `parse`, which returns the index of the CRLF). -/
theorem c1_roundtrip_amended
    (p : Option Pfx) (c : Command) (ps : Option (List Str)) (lp : Option Str)
    (m : Message)
    (hnew : Message.new p c ps lp = .ok m)
    (hcmd : CmdOk p c) (hpfx : PfxOk p c ps lp) (hps : PsOk ps) (hlp : LpOk lp) :
    ∃ bs : Str, m.to_bytes = .ok bs ∧
      Message.parse bs = .ok (some (m, bs.length - 2)) := by
  obtain ⟨hpBad, hcBad, hpsBad, hpsOv, hlpBad, hlen, hm⟩ := new_ok_extract hnew
  subst hm
  have htb : Message.to_bytes ⟨p, c, ps, lp⟩ =
      .ok (wireBody ⟨p, c, ps, lp⟩ ++ [13, 10]) := by
    unfold Message.to_bytes
    show (if Message.calc_len p c ps lp > 512 then
        (Except.error Error.MessageTooLong : Except Error Str)
      else Except.ok (wireBody ⟨p, c, ps, lp⟩ ++ [13, 10])) = _
    rw [if_neg (by omega)]
  refine ⟨wireBody ⟨p, c, ps, lp⟩ ++ [13, 10], htb, ?_⟩
  obtain ⟨hcBne, hcBsp, hcB13, hcw, hnoCol⟩ := commandBytes_facts hcmd hcBad
  have hpfxUser : ∀ u, p ≠ some (.User u) := by
    intro u hu
    rw [hu] at hpfx
    exact hpfx
  have hbody13 := wireBody_no13 hpBad hpfxUser hcB13 hpsBad hlp
  have hpos : crlfPos (wireBody ⟨p, c, ps, lp⟩ ++ [13, 10]) =
      some (wireBody ⟨p, c, ps, lp⟩).length := crlfPos_append [] hbody13
  have hwl := wireBody_length p c ps lp hcw
  have hble : (wireBody ⟨p, c, ps, lp⟩).length ≤ 510 := by omega
  have hmm := matchMessage_wire p c ps lp hcBne hcBsp hps hpsBad hpsOv hlp hpfx
    hpBad hnoCol
  have hshape : wireBody ⟨p, c, ps, lp⟩ ++ [13, 10] =
      prefixBytes p ++
        (commandBytes c ++ (paramsBytes ps ++ (lastBytes lp ++ [13, 10]))) := by
    simp [wireBody, List.append_assoc]
  have hmm2 : matchMessage (wireBody ⟨p, c, ps, lp⟩ ++ [13, 10]) =
      some (pcOf p, commandBytes c, psSpan ps, lp, []) := by
    rw [hshape]
    exact hmm
  have hmsg : capsToMessage (pcOf p) (commandBytes c) (psSpan ps) lp =
      (⟨p, c, ps, lp⟩ : Message) := by
    have hpc : (match pcOf p with
        | PrefCap.noPfx => none
        | PrefCap.userPfx n u s => some (Pfx.User ⟨n, u, s⟩)
        | PrefCap.serverPfx s => some (Pfx.Server s)) = p := by
      cases p with
      | none => rfl
      | some pf =>
        cases pf with
        | Server s => rfl
        | User u => rfl
    have hcc : (match parseU16 (commandBytes c) with
        | some n => Command.Numeric n
        | none => Command.General (commandBytes c)) = c := by
      cases c with
      | General s =>
        obtain ⟨-, hpu, -⟩ := hcmd
        show (match parseU16 s with
          | some n => Command.Numeric n
          | none => Command.General s) = Command.General s
        rw [hpu]
      | Numeric n =>
        have h999 : n ≤ 999 := hcmd
        show (match parseU16 (pad3 n) with
          | some k => Command.Numeric k
          | none => Command.General (pad3 n)) = Command.Numeric n
        rw [parseU16_pad3 (by omega)]
    have hpp : (match psSpan ps with
        | some span => some (splitAsciiWs span)
        | none => none) = ps := by
      cases ps with
      | none => rfl
      | some l =>
        obtain ⟨hlne, hall⟩ := hps
        cases l with
        | nil => exact absurd rfl hlne
        | cons t1 ts' =>
          show some (splitAsciiWs (t1 ++ (ts'.map (fun t => 32 :: t)).flatten)) =
            some (t1 :: ts')
          obtain ⟨h1ne, h1ws⟩ := hall t1 (by simp)
          rw [show splitAsciiWs (t1 ++ (ts'.map (fun t => 32 :: t)).flatten) =
            t1 :: ts' from
            splitWsGo_chain ts' t1 h1ne h1ws (fun t ht => hall t (by simp [ht]))]
    show Message.mk _ _ _ _ = Message.mk p c ps lp
    rw [Message.mk.injEq]
    exact ⟨hpc, hcc, hpp, rfl⟩
  have hfinal := parse_eval hpos (by omega) hmm2 (by simp)
  rw [hfinal, hmsg]
  have hL : (wireBody ⟨p, c, ps, lp⟩ ++ [13, 10]).length - 2 =
      (wireBody ⟨p, c, ps, lp⟩).length := by
    simp
  rw [hL]

/-!
Helper lemmas for the overflow frames (claim C9) and the length/capacity
claims.
-/

theorem chainBytes_flatten (ts : List Str) (R : List Nat) :
    chainBytes ts R = (ts.map (fun t => 32 :: t)).flatten ++ R := by
  induction ts with
  | nil => simp [chainBytes]
  | cons t tt ih =>
    show 32 :: t ++ chainBytes tt R = _
    rw [ih]
    simp

theorem chainBytes_append2 (xs ys : List Str) (R : List Nat) :
    chainBytes (xs ++ ys) R = chainBytes xs (chainBytes ys R) := by
  unfold chainBytes
  rw [List.foldr_append]

theorem chainBytes_joinSp (t : Str) (B : List Str) (R : List Nat) :
    chainBytes (t :: B) R = 32 :: (joinSp (t :: B) ++ R) := by
  induction B generalizing t with
  | nil => simp [chainBytes, joinSp]
  | cons b B' ih =>
    show 32 :: t ++ chainBytes (b :: B') R = 32 :: ((t ++ 32 :: joinSp (b :: B')) ++ R)
    rw [ih b]
    simp

theorem joinSp_head {t : Str} (B : List Str) (hne : t ≠ []) :
    (joinSp (t :: B)).head? = t.head? := by
  cases B with
  | nil => rfl
  | cons b B' =>
    show (t ++ 32 :: joinSp (b :: B')).head? = t.head?
    cases t with
    | nil => exact absurd rfl hne
    | cons c t' => rfl

theorem joinSp_not_mem (B : List Str) (a : Nat) (ha : a ≠ 32)
    (h : ∀ t ∈ B, a ∉ t) : a ∉ joinSp B := by
  induction B with
  | nil => simp [joinSp]
  | cons t B' ih =>
    cases B' with
    | nil => exact h t (by simp)
    | cons b B'' =>
      show a ∉ t ++ 32 :: joinSp (b :: B'')
      intro hmem
      simp only [List.mem_append, List.mem_cons] at hmem
      rcases hmem with hm | hm | hm
      · exact h t (by simp) hm
      · exact ha hm
      · exact ih (fun x hx => h x (by simp [hx])) hm

theorem flatten_not_mem (ts : List Str) (a : Nat) (ha : a ≠ 32)
    (h : ∀ t ∈ ts, a ∉ t) : a ∉ (ts.map (fun t => 32 :: t)).flatten := by
  intro hmem
  simp only [List.mem_flatten, List.mem_map] at hmem
  obtain ⟨piece, ⟨t, htl, rfl⟩, hmem2⟩ := hmem
  rcases List.mem_cons.mp hmem2 with hm | hm
  · exact ha hm
  · exact h t htl hm

theorem chainBytes_head (mid : List Str) (T : List Nat) (hT : T.head? = some 32) :
    (chainBytes mid T).head? = some 32 := by
  cases mid with
  | nil => exact hT
  | cons t tt => rfl

/-- Original claim C1 is refuted on the consumed-byte count: the message
`General "HI"` (no prefix, no parameters) serializes to the four bytes
`HI\r\n`, but `parse` on those bytes reports only 2 consumed bytes — the
index of the CRLF — not the 4 bytes of the `to_bytes` output. -/
theorem c1_roundtrip_counterexample :
    Message.new none (.General (sb "HI")) none none =
      .ok ⟨none, .General (sb "HI"), none, none⟩ ∧
    Message.to_bytes ⟨none, .General (sb "HI"), none, none⟩ =
      .ok (sb "HI" ++ [13, 10]) ∧
    (sb "HI" ++ [13, 10]).length = 4 ∧
    Message.parse (sb "HI" ++ [13, 10]) =
      .ok (some (⟨none, .General (sb "HI"), none, none⟩, 2)) :=
  ⟨by decide, by decide, by decide, by decide⟩

/-- Witness for the amended round-trip: a server-prefixed `PRIVMSG` with one
middle parameter and a trailing parameter round-trips. -/
theorem c1_roundtrip_witness :
    ∃ bs : Str,
      Message.to_bytes ⟨some (.Server (sb "irc.example")), .General (sb "PRIVMSG"),
        some [sb "chan"], some (sb "hello")⟩ = .ok bs ∧
      Message.parse bs = .ok (some ((⟨some (.Server (sb "irc.example")),
        .General (sb "PRIVMSG"), some [sb "chan"], some (sb "hello")⟩ : Message),
        bs.length - 2)) :=
  c1_roundtrip_amended (some (.Server (sb "irc.example"))) (.General (sb "PRIVMSG"))
    (some [sb "chan"]) (some (sb "hello"))
    ⟨some (.Server (sb "irc.example")), .General (sb "PRIVMSG"),
      some [sb "chan"], some (sb "hello")⟩
    (by decide) (by simp only [CmdOk]; decide) (by simp only [PfxOk]; decide)
    (by simp only [PsOk]; decide) (by simp only [LpOk]; decide)

/-- Claim C2 (code bug): `parse` returns `size`, the index of the first CRLF,
not the length of the full matched span including the CRLF.  On the four-byte
frame `HI\r\n` it reports 2 consumed bytes, so advancing by the returned
count leaves the CRLF in the buffer. -/
theorem c2_consumed_count_code_bug :
    (sb "HI" ++ [13, 10]).length = 4 ∧
    Message.parse (sb "HI" ++ [13, 10]) =
      .ok (some (⟨none, .General (sb "HI"), none, none⟩, 2)) :=
  ⟨by decide, by decide⟩

/-- Claim C3 (code bug): the framer's `if let Ok(Some(..))` discards parse
errors.  On the malformed frame ` \r\n`, `parse` returns a `Parsing` error,
but `receive` does not surface it: it reads the next chunk and ultimately
reports `ConnectionReset` when the stream ends, never the parse error. -/
theorem c3_swallowed_parse_error :
    Message.parse [32, 13, 10] = .error .Parsing ∧
    receive [32, 13, 10] [[65, 13, 10]] = .connectionReset :=
  ⟨by decide, by decide⟩

/-- Claim C4 (code bug): a user-prefix message serializes with NO space
between the prefix and the command: `to_bytes` writes
`:nick!user@serverCMD\r\n`, a byte string containing no space byte at all,
instead of the `:nick!user@server CMD\r\n` the specification requires. -/
theorem c4_user_prefix_missing_space :
    Message.to_bytes ⟨some (.User ⟨sb "nick", sb "user", sb "server"⟩),
        .General (sb "CMD"), none, none⟩ =
      .ok (sb ":nick!user@serverCMD" ++ [13, 10]) ∧
    32 ∉ sb ":nick!user@serverCMD" ++ [13, 10] :=
  ⟨by decide, by decide⟩

/-- Amended claim C5 (length and capacity): restricted to messages whose
command renders in the 3 bytes `calc_len` charges (`General`, or `Numeric`
with at most three digits) and whose prefix is not a `User` mask (for which
`calc_len` counts a separating space `to_bytes` never writes): when the
formula length is at most 512, `to_bytes` succeeds with output length and
buffer capacity both exactly the formula value; when it exceeds 512,
`to_bytes` fails with `MessageTooLong`. -/
theorem c5_length_capacity_amended (m : Message)
    (hw : cmdWidth3 m.command) (hpfx : ∀ u, m.prefix_ ≠ some (.User u)) :
    (Message.calc_len m.prefix_ m.command m.parameters m.last_parameter ≤ 512 →
      ∃ bs, m.to_bytes = .ok bs ∧
        bs.length = Message.calc_len m.prefix_ m.command m.parameters m.last_parameter ∧
        m.to_bytes_capacity =
          Message.calc_len m.prefix_ m.command m.parameters m.last_parameter) ∧
    (Message.calc_len m.prefix_ m.command m.parameters m.last_parameter > 512 →
      m.to_bytes = .error .MessageTooLong) := by
  obtain ⟨p, c, ps, lp⟩ := m
  have hwl := wireBody_length p c ps lp hw
  have huser : (match p with | some (.User _) => 1 | _ => 0) = 0 := by
    cases p with
    | none => rfl
    | some pf =>
      cases pf with
      | Server s => rfl
      | User u => exact absurd rfl (hpfx u)
  rw [huser] at hwl
  constructor
  · intro hle
    have hle' : Message.calc_len p c ps lp ≤ 512 := hle
    have htb : Message.to_bytes ⟨p, c, ps, lp⟩ =
        .ok (wireBody ⟨p, c, ps, lp⟩ ++ [13, 10]) := by
      show (if Message.calc_len p c ps lp > 512 then
          (Except.error Error.MessageTooLong : Except Error Str)
        else Except.ok (wireBody ⟨p, c, ps, lp⟩ ++ [13, 10])) = _
      rw [if_neg (by omega)]
    have hblen : (wireBody ⟨p, c, ps, lp⟩ ++ [13, 10]).length =
        Message.calc_len p c ps lp := by
      simp only [List.length_append, List.length_cons, List.length_nil]
      omega
    refine ⟨wireBody ⟨p, c, ps, lp⟩ ++ [13, 10], htb, hblen, ?_⟩
    unfold Message.to_bytes_capacity
    rw [htb]
    simp [hblen]
  · intro hgt
    have hgt' : Message.calc_len p c ps lp > 512 := hgt
    show (if Message.calc_len p c ps lp > 512 then
        (Except.error Error.MessageTooLong : Except Error Str)
      else Except.ok (wireBody ⟨p, c, ps, lp⟩ ++ [13, 10])) = _
    rw [if_pos (by omega)]

/-- Original claim C5 is refuted without the command-width restriction: for
`Numeric 1000` the formula gives 5 bytes, `to_bytes` succeeds, but the output
(`1000\r\n`) is 6 bytes long, not 5. -/
theorem c5_capacity_counterexample :
    Message.calc_len none (.Numeric 1000) none none = 5 ∧
    ∃ bs, Message.to_bytes ⟨none, .Numeric 1000, none, none⟩ = .ok bs ∧
      bs.length ≠ 5 := by
  refine ⟨by decide, pad3 1000 ++ [13, 10], ?_, ?_⟩
  · show (if Message.calc_len none (.Numeric 1000) none none > 512 then
        (Except.error Error.MessageTooLong : Except Error Str)
      else Except.ok (wireBody ⟨none, .Numeric 1000, none, none⟩ ++ [13, 10])) = _
    rw [if_neg (by decide)]
    show Except.ok ((([] : Str) ++ pad3 1000 ++ [] ++ []) ++ [13, 10]) = _
    simp
  · have h4 := pad3_length_ge4 (le_refl 1000)
    simp only [List.length_append, List.length_cons, List.length_nil]
    omega

/-- Witness for the amended C5 at the message `General "HI"`. -/
theorem c5_length_capacity_witness :
    (Message.calc_len none (.General (sb "HI")) none none ≤ 512 →
      ∃ bs, Message.to_bytes ⟨none, .General (sb "HI"), none, none⟩ = .ok bs ∧
        bs.length = Message.calc_len none (.General (sb "HI")) none none ∧
        Message.to_bytes_capacity ⟨none, .General (sb "HI"), none, none⟩ =
          Message.calc_len none (.General (sb "HI")) none none) ∧
    (Message.calc_len none (.General (sb "HI")) none none > 512 →
      Message.to_bytes ⟨none, .General (sb "HI"), none, none⟩ =
        .error .MessageTooLong) :=
  c5_length_capacity_amended ⟨none, .General (sb "HI"), none, none⟩ trivial
    (fun u h => Option.noConfusion h)

/-- Claim C6: when a zero-byte read occurs (an empty chunk, or an exhausted
stream) and the buffer holds no complete message, `receive` ends with
`streamEnd` (Rust `Ok(None)`) on an empty buffer and `connectionReset` on a
non-empty one. -/
theorem c6_zero_read_outcomes (buf : List Nat) (chunks : List (List Nat))
    (h : gotMsg (Message.parse buf) = false) :
    receive buf ([] :: chunks) =
      (if buf.isEmpty then ReceiveResult.streamEnd
       else ReceiveResult.connectionReset) ∧
    receive buf [] =
      (if buf.isEmpty then ReceiveResult.streamEnd
       else ReceiveResult.connectionReset) := by
  have hnil : receive buf [] =
      (match Message.parse buf with
       | .ok (some (m, size)) => ReceiveResult.msg m (buf.drop size) []
       | _ => if buf.isEmpty then ReceiveResult.streamEnd
              else ReceiveResult.connectionReset) := rfl
  have hcons : receive buf ([] :: chunks) =
      (match Message.parse buf with
       | .ok (some (m, size)) => ReceiveResult.msg m (buf.drop size) ([] :: chunks)
       | _ =>
         if ([] : List Nat).isEmpty then
           (if buf.isEmpty then ReceiveResult.streamEnd
            else ReceiveResult.connectionReset)
         else receive (buf ++ []) chunks) := rfl
  cases hp : Message.parse buf with
  | error e =>
    rw [hcons, hnil, hp]
    exact ⟨rfl, rfl⟩
  | ok o =>
    cases o with
    | none =>
      rw [hcons, hnil, hp]
      exact ⟨rfl, rfl⟩
    | some x =>
      rw [hp] at h
      simp [gotMsg] at h

/-- Witness for C6: a buffer holding a lone `A` gives `connectionReset`, an
empty buffer gives `streamEnd`. -/
theorem c6_zero_read_witness :
    receive [65] [] = .connectionReset ∧ receive [] [] = .streamEnd := by
  refine ⟨?_, ?_⟩
  · have h := (c6_zero_read_outcomes [65] [] (by decide)).2
    simpa using h
  · have h := (c6_zero_read_outcomes [] [] (by decide)).2
    simpa using h

/-- Claim C7: content of exactly 510 bytes before the first CRLF is never
rejected as too long (the grammar is attempted), while content longer than
510 bytes always fails with `MessageTooLong`. -/
theorem c7_length_boundary (input : List Nat) (k : Nat)
    (hpos : crlfPos input = some k) :
    (k = 510 → Message.parse input ≠ .error .MessageTooLong) ∧
    (k > 510 → Message.parse input = .error .MessageTooLong) := by
  constructor
  · intro hk
    unfold Message.parse
    simp only [hpos]
    rw [if_neg (by omega)]
    cases hmn : matchMessage input with
    | none => simp
    | some x =>
      obtain ⟨pc, cmd, ps, lp, rest⟩ := x
      simp only
      split <;> simp
  · intro hk
    unfold Message.parse
    simp only [hpos]
    rw [if_pos (by omega)]

set_option maxRecDepth 8192 in
/-- Witness for C7 at the boundary: 510 bytes of `A` parse (no too-long
error), 511 bytes fail with `MessageTooLong`. -/
theorem c7_length_boundary_witness :
    (Message.parse (List.replicate 510 65 ++ [13, 10]) ≠
      .error .MessageTooLong) ∧
    Message.parse (List.replicate 511 65 ++ [13, 10]) =
      .error .MessageTooLong :=
  ⟨(c7_length_boundary (List.replicate 510 65 ++ [13, 10]) 510 (by decide)).1 rfl,
   (c7_length_boundary (List.replicate 511 65 ++ [13, 10]) 511 (by decide)).2
     (by decide)⟩

/-- Claim C8: a buffer with no CRLF pair anywhere parses to `Ok(None)` —
incomplete data, never an error — whatever its bytes. -/
theorem c8_no_crlf_incomplete (input : List Nat)
    (h : ¬ ([13, 10] <:+: input)) :
    Message.parse input = .ok none := by
  have hnone : crlfPos input = none := by
    cases hc : crlfPos input with
    | none => rfl
    | some k => exact absurd (crlfPos_some_hasPair hc) h
  unfold Message.parse
  rw [hnone]

/-- Witness for C8 on the CRLF-free buffer `Hi`. -/
theorem c8_no_crlf_witness : Message.parse [72, 105] = .ok none :=
  c8_no_crlf_incomplete [72, 105] (by decide)

theorem pad3_length_ge3 (n : Nat) : 3 ≤ (pad3 n).length := by
  unfold pad3
  simp only [List.length_append, List.length_replicate]
  omega

theorem wireBody_length_numeric (p : Option Pfx) (n : Nat) (ps : Option (List Str))
    (lp : Option Str) :
    (wireBody ⟨p, .Numeric n, ps, lp⟩).length + 2 +
      (match p with | some (.User _) => 1 | _ => 0) =
      Message.calc_len p (.Numeric n) ps lp + ((pad3 n).length - 3) := by
  have h3 := pad3_length_ge3 n
  cases p with
  | none =>
    cases ps <;> cases lp <;>
      (simp only [wireBody, prefixBytes, commandBytes, paramsBytes, lastBytes,
        Message.calc_len, paramsFold_len, List.length_append, List.length_cons,
        List.length_nil, List.append_nil, List.nil_append]; try omega)
  | some pf =>
    cases pf <;> (cases ps <;> cases lp <;>
      (simp only [wireBody, prefixBytes, commandBytes, paramsBytes, lastBytes,
        Message.calc_len, paramsFold_len, List.length_append, List.length_cons,
        List.length_nil, List.append_nil, List.nil_append]; try omega))

/-- Amended claim C10: both constructors accept `Numeric n` for any 16-bit
`n` (no three-digit restriction), and for `n ≥ 1000` the `{:03}` rendering
writes every digit of `n` — more than the 3 bytes `calc_len` charges — so
for any message whose prefix is not a `User` mask, whatever its parameters
and trailing parameter, every successful `to_bytes` output is strictly
longer than the computed wire length.  The `User` restriction is forced: the
prefix is written one byte short of what `calc_len` charges, which can
cancel the extra command digit. -/
theorem c10_numeric_width_amended (p : Option Pfx) (n : Nat)
    (ps : Option (List Str)) (lp : Option Str) (hn : n < 65536)
    (hpfx : ∀ u, p ≠ some (.User u)) :
    Message.new_unchecked p (.Numeric n) ps lp = ⟨p, .Numeric n, ps, lp⟩ ∧
    Message.new none (.Numeric n) none none = .ok ⟨none, .Numeric n, none, none⟩ ∧
    (1000 ≤ n → ∀ bs, Message.to_bytes ⟨p, .Numeric n, ps, lp⟩ = .ok bs →
      bs.length > Message.calc_len p (.Numeric n) ps lp) := by
  refine ⟨rfl, rfl, fun h1000 bs htb => ?_⟩
  have huser : (match p with | some (.User _) => 1 | _ => 0) = 0 := by
    cases p with
    | none => rfl
    | some pf =>
      cases pf with
      | Server s => rfl
      | User u => exact absurd rfl (hpfx u)
  have hwl := wireBody_length_numeric p n ps lp
  rw [huser] at hwl
  have h4 := pad3_length_ge4 h1000
  have htb' : (if Message.calc_len p (.Numeric n) ps lp > 512 then
      (Except.error Error.MessageTooLong : Except Error Str)
    else Except.ok (wireBody ⟨p, .Numeric n, ps, lp⟩ ++ [13, 10])) = .ok bs := htb
  split at htb'
  · exact absurd htb' (by simp)
  · have hbs : wireBody ⟨p, .Numeric n, ps, lp⟩ ++ [13, 10] = bs := by
      simpa using htb'
    rw [← hbs]
    simp only [List.length_append, List.length_cons, List.length_nil]
    omega

/-- Original claim C10 is refuted on user-prefix messages: for the mask
`n!u@s` with command `Numeric 1000`, `calc_len` gives 12, and the output
`:n!u@s1000\r\n` is exactly 12 bytes — the prefix is written one byte
short of what the formula charges, cancelling the extra digit, so the
output is NOT strictly longer than the computed wire length. -/
theorem c10_numeric_width_counterexample :
    Message.calc_len (some (.User ⟨sb "n", sb "u", sb "s"⟩)) (.Numeric 1000)
      none none = 12 ∧
    ∃ bs, Message.to_bytes ⟨some (.User ⟨sb "n", sb "u", sb "s"⟩), .Numeric 1000,
        none, none⟩ = .ok bs ∧
      ¬ bs.length > Message.calc_len (some (.User ⟨sb "n", sb "u", sb "s"⟩))
        (.Numeric 1000) none none := by
  have hd : decDigits 1000 = [49, 48, 48, 48] := by simp [decDigits]
  have hp : pad3 1000 = [49, 48, 48, 48] := by
    unfold pad3
    rw [hd]
    decide
  refine ⟨by decide,
    (58 :: sb "n" ++ 33 :: sb "u" ++ 64 :: sb "s") ++ pad3 1000 ++ [13, 10],
    ?_, ?_⟩
  · show (if Message.calc_len (some (.User ⟨sb "n", sb "u", sb "s"⟩)) (.Numeric 1000)
        none none > 512 then
        (Except.error Error.MessageTooLong : Except Error Str)
      else Except.ok (wireBody ⟨some (.User ⟨sb "n", sb "u", sb "s"⟩), .Numeric 1000,
        none, none⟩ ++ [13, 10])) = _
    rw [if_neg (by decide)]
    show Except.ok (((58 :: sb "n" ++ 33 :: sb "u" ++ 64 :: sb "s") ++
      pad3 1000 ++ [] ++ []) ++ [13, 10]) = _
    simp
  · rw [hp]
    decide

/-- Witness for the amended C10 at a bare `Numeric 1000` message. -/
theorem c10_numeric_width_witness :
    Message.new_unchecked none (.Numeric 1000) none none =
      ⟨none, .Numeric 1000, none, none⟩ ∧
    Message.new none (.Numeric 1000) none none =
      .ok ⟨none, .Numeric 1000, none, none⟩ ∧
    (1000 ≤ 1000 → ∀ bs, Message.to_bytes ⟨none, .Numeric 1000, none, none⟩ = .ok bs →
      bs.length > Message.calc_len none (.Numeric 1000) none none) :=
  c10_numeric_width_amended none 1000 none none (by decide)
    (fun u h => Option.noConfusion h)

/-- Claim C9: a frame `command` + 17 space-separated tokens + CRLF parses to
exactly 14 middle parameters (the first 14 tokens) and a trailing parameter
equal to the remaining three tokens joined by single spaces, and the result
is identical whether the 15th token is written bare (`frameA`) or with a
leading colon (`frameB`).  The frames are assumed to fit the 512-byte frame
bound, since an over-long frame is rejected before the grammar runs. -/
theorem c9_seventeen_tokens (c : Str) (ts : List Str)
    (hcne : c ≠ []) (hcu : parseU16 c = none) (hc58 : c.head? ≠ some 58)
    (hcws : ∀ b ∈ c, isAsciiWs b = false)
    (hts : ∀ t ∈ ts, TokOk t) (hlen : ts.length = 17)
    (hA : (frameA c ts).length ≤ 512) (hB : (frameB c ts).length ≤ 512) :
    Message.parse (frameA c ts) =
      .ok (some (⟨none, .General c, some (ts.take 14), some (joinSp (ts.drop 14))⟩,
        (frameA c ts).length - 2)) ∧
    Message.parse (frameB c ts) =
      .ok (some (⟨none, .General c, some (ts.take 14), some (joinSp (ts.drop 14))⟩,
        (frameB c ts).length - 2)) := by
  cases ts with
  | nil => simp at hlen
  | cons t1 rest =>
  have hrlen : rest.length = 16 := by simpa using hlen
  have hmidlen : (rest.take 13).length = 13 := by simp [List.length_take, hrlen]
  have hBlen : (rest.drop 13).length = 3 := by simp [List.length_drop, hrlen]
  obtain ⟨t15, B', hBeq⟩ : ∃ a l, rest.drop 13 = a :: l := by
    cases hb : rest.drop 13 with
    | nil => rw [hb] at hBlen; simp at hBlen
    | cons a l => exact ⟨a, l, rfl⟩
  have ht1 : TokOk t1 := hts t1 (by simp)
  have htsmid : ∀ t ∈ rest.take 13, TokOk t :=
    fun t ht => hts t (List.mem_cons_of_mem _ (List.take_subset _ _ ht))
  have htsB : ∀ t ∈ rest.drop 13, TokOk t :=
    fun t ht => hts t (List.mem_cons_of_mem _ (List.drop_subset _ _ ht))
  have ht15 : TokOk t15 := htsB t15 (by rw [hBeq]; simp)
  have hj13 : 13 ∉ joinSp (rest.drop 13) := by
    apply joinSp_not_mem _ _ (by omega)
    intro t ht hm
    have := (htsB t ht).2.2 13 hm
    simp [isAsciiWs] at this
  have hj10 : 10 ∉ joinSp (rest.drop 13) := by
    apply joinSp_not_mem _ _ (by omega)
    intro t ht hm
    have := (htsB t ht).2.2 10 hm
    simp [isAsciiWs] at this
  have hjhead : (joinSp (rest.drop 13)).head? = t15.head? := by
    rw [hBeq]
    exact joinSp_head B' ht15.1
  have hjh58 : (joinSp (rest.drop 13)).head? ≠ some 58 := by
    rw [hjhead]
    exact ht15.2.1
  have hjh32 : (joinSp (rest.drop 13)).head? ≠ some 32 := by
    rw [hjhead]
    obtain ⟨c0, t', he, hc0, -, -⟩ := tokOk_head ht15
    rw [he]
    simp only [Bool.or_eq_false_iff, beq_eq_false_iff_ne, ne_eq] at hc0
    intro h32
    exact hc0.2 (Option.some.inj (by simpa using h32))
  have h32c : 32 ∉ c := fun hm => by
    have := hcws 32 hm
    simp [isAsciiWs] at this
  have hcsp : ∀ b ∈ c, nSp b = true := nsp_of_not_mem h32c
  have h13c : 13 ∉ c := fun hm => by
    have := hcws 13 hm
    simp [isAsciiWs] at this
  have hflat13 : ∀ (l : List Str), (∀ t ∈ l, TokOk t) →
      13 ∉ (l.map (fun t => 32 :: t)).flatten := by
    intro l hl
    apply flatten_not_mem _ _ (by omega)
    intro t ht hm
    have := (hl t ht).2.2 13 hm
    simp [isAsciiWs] at this
  have hha : ∀ (X : List Nat), (c ++ X).head? ≠ some 58 := by
    intro X
    cases c with
    | nil => exact absurd rfl hcne
    | cons a c' =>
      have ha : a ≠ 58 := by simpa using hc58
      simpa using ha
  have hcapsEq : capsToMessage PrefCap.noPfx c
      (some (t1 ++ ((rest.take 13).map (fun t => 32 :: t)).flatten))
      (some (joinSp (rest.drop 13))) =
      (⟨none, .General c, some ((t1 :: rest).take 14),
        some (joinSp ((t1 :: rest).drop 14))⟩ : Message) := by
    show Message.mk _ _ _ _ = _
    rw [Message.mk.injEq]
    refine ⟨rfl, ?_, ?_, rfl⟩
    · show (match parseU16 c with
        | some n => Command.Numeric n
        | none => Command.General c) = Command.General c
      rw [hcu]
    · show some (splitAsciiWs (t1 ++ ((rest.take 13).map (fun t => 32 :: t)).flatten)) =
        some ((t1 :: rest).take 14)
      rw [show (t1 :: rest).take 14 = t1 :: rest.take 13 from rfl]
      rw [show splitAsciiWs (t1 ++ ((rest.take 13).map (fun t => 32 :: t)).flatten) =
        t1 :: rest.take 13 from splitWsGo_chain (rest.take 13) t1 ht1.1 ht1.2.2
          (fun t ht => ⟨(htsmid t ht).1, (htsmid t ht).2.2⟩)]
  constructor
  · -- frameA: the 15th token is bare
    have hshapeA : frameA c (t1 :: rest) =
        c ++ 32 :: (t1 ++ chainBytes (rest.take 13)
          (chainBytes (rest.drop 13) [13, 10])) := by
      unfold frameA
      rw [List.append_assoc, flatten_chain]
      rw [← chainBytes_append2, List.take_append_drop]
      simp
    have hTAhead : (chainBytes (rest.drop 13) [13, 10]).head? = some 32 := by
      rw [hBeq]
      rfl
    have hTA : chainBytes (rest.drop 13) [13, 10] =
        32 :: (joinSp (rest.drop 13) ++ [13, 10]) := by
      rw [hBeq]
      exact chainBytes_joinSp t15 B' [13, 10]
    have hstopA : ∀ acc' : Str,
        repElems (13 - (rest.take 13).length) acc'
          (chainBytes (rest.drop 13) [13, 10]) KP =
          some (some acc', some (joinSp (rest.drop 13)), []) := by
      intro acc'
      rw [hmidlen]
      show afterParams (some acc') (chainBytes (rest.drop 13) [13, 10]) = _
      rw [hTA]
      exact afterParams_noColon hj13 hj10 hjh58 hjh32
    have hchainA := @repElems_chain (chainBytes (rest.drop 13) [13, 10])
      (fun s => (some s, some (joinSp (rest.drop 13)), []))
      hTAhead (rest.take 13) 13 t1 (by omega) htsmid hstopA
    have hrunA := matchParamsGroup_run ht1 (chainBytes_head _ _ hTAhead) hchainA
    have hcmdA : matchCommandLine (c ++ 32 :: (t1 ++ chainBytes (rest.take 13)
        (chainBytes (rest.drop 13) [13, 10]))) =
        some (c, some (t1 ++ ((rest.take 13).map (fun t => 32 :: t)).flatten),
          some (joinSp (rest.drop 13)), []) :=
      matchCommandLine_sp hcne hcsp hrunA
    have hmmA : matchMessage (frameA c (t1 :: rest)) =
        some (PrefCap.noPfx, c,
          some (t1 ++ ((rest.take 13).map (fun t => 32 :: t)).flatten),
          some (joinSp (rest.drop 13)), []) := by
      rw [hshapeA]
      unfold matchMessage
      rw [matchPrefixGroup_none (hha _)]
      rw [hcmdA]
      rfl
    have hposA : crlfPos (frameA c (t1 :: rest)) =
        some ((c ++ ((t1 :: rest).map (fun t => 32 :: t)).flatten).length) := by
      show crlfPos ((c ++ ((t1 :: rest).map (fun t => 32 :: t)).flatten) ++
        13 :: 10 :: []) = _
      exact crlfPos_append [] (by
        intro hm
        rcases List.mem_append.mp hm with h | h
        · exact h13c h
        · exact hflat13 (t1 :: rest) hts h)
    have hlA : (frameA c (t1 :: rest)).length =
        (c ++ ((t1 :: rest).map (fun t => 32 :: t)).flatten).length + 2 := by
      unfold frameA
      simp only [List.length_append, List.length_cons, List.length_nil]
      try omega
    have hparseA := parse_eval hposA (by omega) hmmA (by omega)
    rw [hparseA, hcapsEq, hlA]
    simp
  · -- frameB: the 15th token carries a leading colon on the wire
    have hshapeB : frameB c (t1 :: rest) =
        c ++ 32 :: (t1 ++ chainBytes (rest.take 13)
          (32 :: 58 :: joinSp (rest.drop 13) ++ [13, 10])) := by
      unfold frameB
      rw [show (t1 :: rest).take 14 = t1 :: rest.take 13 from rfl,
          show (t1 :: rest).drop 14 = rest.drop 13 from rfl]
      rw [List.append_assoc, List.append_assoc, flatten_chain]
      simp
    have hstopB : ∀ acc' : Str,
        repElems (13 - (rest.take 13).length) acc'
          (32 :: 58 :: joinSp (rest.drop 13) ++ [13, 10]) KP =
          some (some acc', some (joinSp (rest.drop 13)), []) := by
      intro acc'
      rw [hmidlen]
      show afterParams (some acc')
        (32 :: 58 :: joinSp (rest.drop 13) ++ [13, 10]) = _
      exact afterParams_colon hj13 hj10
    have hchainB := @repElems_chain
      (32 :: 58 :: joinSp (rest.drop 13) ++ [13, 10])
      (fun s => (some s, some (joinSp (rest.drop 13)), []))
      (by simp) (rest.take 13) 13 t1 (by omega) htsmid hstopB
    have hrunB := matchParamsGroup_run ht1 (chainBytes_head _ _ (by simp)) hchainB
    have hcmdB : matchCommandLine (c ++ 32 :: (t1 ++ chainBytes (rest.take 13)
        (32 :: 58 :: joinSp (rest.drop 13) ++ [13, 10]))) =
        some (c, some (t1 ++ ((rest.take 13).map (fun t => 32 :: t)).flatten),
          some (joinSp (rest.drop 13)), []) :=
      matchCommandLine_sp hcne hcsp hrunB
    have hmmB : matchMessage (frameB c (t1 :: rest)) =
        some (PrefCap.noPfx, c,
          some (t1 ++ ((rest.take 13).map (fun t => 32 :: t)).flatten),
          some (joinSp (rest.drop 13)), []) := by
      rw [hshapeB]
      unfold matchMessage
      rw [matchPrefixGroup_none (hha _)]
      rw [hcmdB]
      rfl
    have hposB : crlfPos (frameB c (t1 :: rest)) =
        some ((c ++ (((t1 :: rest).take 14).map (fun t => 32 :: t)).flatten ++
          32 :: 58 :: joinSp ((t1 :: rest).drop 14)).length) := by
      show crlfPos ((c ++ (((t1 :: rest).take 14).map (fun t => 32 :: t)).flatten ++
        32 :: 58 :: joinSp ((t1 :: rest).drop 14)) ++ 13 :: 10 :: []) = _
      exact crlfPos_append [] (by
        intro hm
        rcases List.mem_append.mp hm with h | h
        · rcases List.mem_append.mp h with h2 | h2
          · exact h13c h2
          · exact hflat13 _ (fun t ht => hts t (List.take_subset _ _ ht)) h2
        · rcases List.mem_cons.mp h with h2 | h
          · exact absurd h2 (by omega)
          · rcases List.mem_cons.mp h with h2 | h2
            · exact absurd h2 (by omega)
            · exact hj13 (by
                rw [show (t1 :: rest).drop 14 = rest.drop 13 from rfl] at h2
                exact h2))
    have hlB : (frameB c (t1 :: rest)).length =
        (c ++ (((t1 :: rest).take 14).map (fun t => 32 :: t)).flatten ++
          32 :: 58 :: joinSp ((t1 :: rest).drop 14)).length + 2 := by
      unfold frameB
      simp only [List.length_append, List.length_cons, List.length_nil]
      try omega
    have hparseB := parse_eval hposB (by omega) hmmB (by omega)
    rw [hparseB, hcapsEq, hlB]
    simp

/-- Witness for C9: the command `CMD` with 17 one-byte tokens `a`. -/
theorem c9_seventeen_tokens_witness :
    Message.parse (frameA (sb "CMD") (List.replicate 17 [97])) =
      .ok (some (⟨none, .General (sb "CMD"),
        some ((List.replicate 17 [97]).take 14),
        some (joinSp ((List.replicate 17 [97]).drop 14))⟩,
        (frameA (sb "CMD") (List.replicate 17 [97])).length - 2)) ∧
    Message.parse (frameB (sb "CMD") (List.replicate 17 [97])) =
      .ok (some (⟨none, .General (sb "CMD"),
        some ((List.replicate 17 [97]).take 14),
        some (joinSp ((List.replicate 17 [97]).drop 14))⟩,
        (frameB (sb "CMD") (List.replicate 17 [97])).length - 2)) :=
  c9_seventeen_tokens (sb "CMD") (List.replicate 17 [97]) (by decide) (by decide)
    (by decide) (by decide) (by simp only [TokOk]; decide) (by decide) (by decide)
    (by decide)
